import Mathlib

/-!
Shallow embedding of the yalp LR table generator and parser driver.

The Rust sources embedded here are:
  * `yalp/src/symbol.rs` — the symbol model (`Symbol`, `SymbolKind`,
    the terminal predicates, the identifier-only `Hash`);
  * `yalp-core/src/rule.rs` — `Rule`, `RuleSet`;
  * `core/src/item.rs` — items, item sets, `first`, `follow`, `close`,
    `add_lookaheads`, `reachable_sets`, `start_item_set`;
  * `yalp-core/src/lr/graph.rs` — the canonical-collection graph builder;
  * `yalp-core/src/lr/table.rs` — `Row::from_transition_lr0/lr1`,
    `LrTable::build`;
  * `yalp-core/src/lr/mod.rs` — one iteration of `LrParser::parse`.

Rust `HashSet`s / `HashMap`s are modelled as lists / association lists
(insertion order; `insert` on a present key replaces the value).  Loops of
the source that are `while`-loops over work lists are modelled as
structural recursion on an explicit fuel argument; the public wrappers
pass a fuel that is proved (or, where no theorem depends on it, chosen)
large enough for the loop to drain its work list.
-/

namespace Yalp

/-- `SymbolKind` of `yalp/src/symbol.rs`. -/
inductive SymbolKind where
  | terminal
  | nonTerminal
  | eos
  | start
  | epsilon
  deriving DecidableEq, Repr

/-- `Symbol` of `yalp/src/symbol.rs`: an identifier plus a kind.
`derive(PartialEq)` in the source compares both fields, which is exactly
Lean's structural equality on this structure. -/
structure Symbol where
  id : String
  kind : SymbolKind
  deriving DecidableEq, Repr

namespace Symbol

/-- `Symbol::new(id, true)` / `Symbol::term`. -/
def term (id : String) : Symbol := ⟨id, .terminal⟩

/-- `Symbol::new(id, false)` / `Symbol::nterm`. -/
def nterm (id : String) : Symbol := ⟨id, .nonTerminal⟩

/-- `Symbol::eos()`. -/
def eosS : Symbol := ⟨"<eos>", .eos⟩

/-- `Symbol::start()`. -/
def startS : Symbol := ⟨"<start>", .start⟩

/-- `Symbol::epsilon()`. -/
def epsilonS : Symbol := ⟨"<eps>", .epsilon⟩

/-- `Symbol::is_terminal` of `yalp/src/symbol.rs` (EOS and Epsilon count
as terminal there). -/
def isTerminal (s : Symbol) : Bool :=
  match s.kind with
  | .eos | .epsilon | .terminal => true
  | _ => false

/-- `PrepSymbol::is_terminal` of `core/src/syntax.rs` (only the Terminal
constructor; EOS is not terminal for the item algebra). -/
def isTerminalCore (s : Symbol) : Bool := s.kind = SymbolKind.terminal

/-- `Symbol::is_eos`. -/
def isEos (s : Symbol) : Bool := s.kind = SymbolKind.eos

/-- `Symbol::is_start`. -/
def isStart (s : Symbol) : Bool := s.kind = SymbolKind.start

/-- `Symbol::is_epsilon`. -/
def isEpsilon (s : Symbol) : Bool := s.kind = SymbolKind.epsilon

/-- The `Hash` impl of `yalp/src/symbol.rs` hashes only the identifier
string; we model the hashed content as the identifier's hash. -/
def symbolHash (s : Symbol) : UInt64 := hash s.id

end Symbol

/-- `Rule` of `yalp-core/src/rule.rs`: a numbered production. -/
structure Rule where
  id : Nat
  lhs : Symbol
  rhs : List Symbol
  deriving DecidableEq, Repr

/-- `RuleSet` of `yalp-core/src/rule.rs`: the rules of the grammar plus
the grammar's symbol slice. -/
structure RuleSet where
  rules : List Rule
  symbols : List Symbol
  deriving DecidableEq, Repr

namespace RuleSet

/-- `RuleSet::iter_by_symbol` / `PrepSyntax::iter_by_symbol`: the rules
whose left-hand side is the given symbol. -/
def rulesFor (rs : RuleSet) (sym : Symbol) : List Rule :=
  rs.rules.filter (fun r => r.lhs = sym)

/-- `RuleSet::borrow_rule`: find the rule with the given id. -/
def borrowRule (rs : RuleSet) (id : Nat) : Option Rule :=
  rs.rules.find? (fun r => r.id == id)

/-- `SymbolSlice::eos()`: the `<eos>` symbol of the grammar's slice
(the source panics when absent; we fall back to the canonical value). -/
def eosSym (rs : RuleSet) : Symbol :=
  (rs.symbols.find? Symbol.isEos).getD Symbol.eosS

/-- `SymbolSlice::iter_terminals` (yalp predicate: EOS and Epsilon
count as terminals). -/
def iterTerminals (rs : RuleSet) : List Symbol :=
  rs.symbols.filter Symbol.isTerminal

/-- The start symbol of `PrepSyntax` (`symbols.start`): the left-hand
side of rule 0, i.e. of the first rule. -/
def startSym (rs : RuleSet) : Option Symbol :=
  rs.rules.head?.map (·.lhs)

/-- `PrepSyntax::is_start`. -/
def isStart (rs : RuleSet) (sym : Symbol) : Bool :=
  rs.startSym = some sym

end RuleSet

/-- `Item` of `core/src/item.rs`: a rule, a dot position and a lookahead
tuple (`Array<K, _>` in the source is a length-capped vector; its default
is empty). The source stores `&PrepRule`; we embed the rule by value. -/
structure Item where
  rule : Rule
  pos : Nat
  la : List Symbol
  deriving DecidableEq, Repr

namespace Item

/-- `Item::new` / `PrepRule::at`: defined when `rhs.len() >= position`,
with an empty (default) lookahead tuple. -/
def atPos (r : Rule) (position : Nat) : Option Item :=
  if position ≤ r.rhs.length then some ⟨r, position, []⟩ else none

/-- `rule.at(0)` never fails. -/
def at0 (r : Rule) : Item := ⟨r, 0, []⟩

/-- `Item::is_exhausted`: the dot is at (or past) the end of the RHS. -/
def isExhausted (i : Item) : Bool := i.rule.rhs.length ≤ i.pos

/-- `Item::symbol`: the symbol after the dot, if any. -/
def symbol (i : Item) : Option Symbol := i.rule.rhs.get? i.pos

/-- `Item::is_reaching_end`: the symbol after the dot is `<eos>`. -/
def isReachingEnd (i : Item) : Bool :=
  match i.symbol with
  | some s => s.isEos
  | none => false

/-- `Item::is_symbol_non_terminal`: the symbol after the dot exists and
is not a (core-)terminal. -/
def isSymbolNonTerminal (i : Item) : Bool :=
  match i.symbol with
  | some s => ¬ s.isTerminalCore
  | none => false

/-- `Item::next`: advance the dot, keeping the lookaheads. -/
def next (i : Item) : Option Item :=
  (atPos i.rule (i.pos + 1)).map (fun j => { j with la := i.la })

/-- `Item::into_core`: drop the lookahead tuple. -/
def intoCore (i : Item) : Item := { i with la := [] }

end Item

/-- `ItemSet` of `core/src/item.rs`: a kernel (a `HashSet` in the source,
modelled as a list up to set-equality) and the closure items, plus the
state id. -/
structure ItemSet where
  id : Nat
  kernel : List Item
  items : List Item
  deriving DecidableEq, Repr

namespace ItemSet

/-- `ItemSet::iter`: kernel items then closure items. -/
def iterItems (s : ItemSet) : List Item := s.kernel ++ s.items

/-- `ItemSet::contains`. -/
def contains (s : ItemSet) (i : Item) : Bool :=
  i ∈ s.kernel ∨ i ∈ s.items

/-- `PartialEq for ItemSet`: kernels compared as sets (`HashSet::eq`). -/
def eqRust (a b : ItemSet) : Bool :=
  a.kernel.all (· ∈ b.kernel) && b.kernel.all (· ∈ a.kernel)

/-- `ItemSet::has_exhausted_items`. -/
def hasExhaustedItems (s : ItemSet) : Bool := s.iterItems.any Item.isExhausted

/-- `ItemSet::iter_exhausted_items`. -/
def iterExhaustedItems (s : ItemSet) : List Item :=
  s.iterItems.filter Item.isExhausted

/-- `ItemSet::has_item_reaching_eos`. -/
def hasItemReachingEos (s : ItemSet) : Bool := s.iterItems.any Item.isReachingEnd

/-- `ItemSet::get_exhausted_rule`: the rule id of the first exhausted
item in iteration order (the source unwraps; callers guard on
`has_exhausted_items`). -/
def getExhaustedRule (s : ItemSet) : Nat :=
  ((s.iterItems.find? Item.isExhausted).map (fun i => i.rule.id)).getD 0

/-- `ItemSet::next`: advance every item; the results form the kernel of
a fresh set (`FromIterator` gives id 0 and no closure items). -/
def nextSet (s : ItemSet) : ItemSet :=
  ⟨0, s.iterItems.filterMap Item.next, []⟩

/-- `ItemSet::reachable_sets`: for every grammar symbol other than
`<eos>`/`<eps>`, the advanced kernel of the items having that symbol at
the dot; empty kernels are dropped. -/
def reachableSets (rs : RuleSet) (s : ItemSet) : List (Symbol × ItemSet) :=
  ((rs.symbols.filter (fun sym => ¬ (sym.isEos ∨ sym.isEpsilon))).map
      (fun sym =>
        (sym, ItemSet.nextSet ⟨0, s.iterItems.filter (fun i => i.symbol = some sym), []⟩))).filter
    (fun p => p.2.kernel ≠ [])

end ItemSet

/-- `PrepSyntax::start_item_set`: the kernel `{rule0 at 0}`, with
lookahead `<eos>` when `k > 0` (the source panics when there is no rule
0; we return an empty kernel then). -/
def RuleSet.startItemSet (rs : RuleSet) (k : Nat) : ItemSet :=
  match rs.rules.head? with
  | none => ⟨0, [], []⟩
  | some r0 =>
      ⟨0, [{ Item.at0 r0 with la := if 0 < k then [Symbol.eosS] else [] }], []⟩

/-- `HashSet::insert` on a list-modelled set: append when absent. -/
def insertIfAbsent [DecidableEq α] (acc : List α) (x : α) : List α :=
  if x ∈ acc then acc else acc ++ [x]

/-- The work-list loop shared by `PrepSyntax::first` and
`PrepSyntax::follow` (`core/src/item.rs`): pop a symbol, skip it when
already visited, otherwise mark it visited, add `emit x` to the result
set and push `succ x`.  `univ` is the finite universe the loop ranges
over; in the source every stacked element belongs to it, so the extra
guard never fires and only totalises the recursion.  Fuel-structural;
wrappers pass enough fuel to drain the stack. -/
def worklist [DecidableEq α] (univ : List α) (succ emit : α → List α) :
    Nat → List α → List α → List α → List α
  | 0, _, _, acc => acc
  | _ + 1, [], _, acc => acc
  | fuel + 1, x :: stk, visited, acc =>
    if x ∈ visited ∨ x ∉ univ then worklist univ succ emit fuel stk visited acc
    else
      worklist univ succ emit fuel (succ x ++ stk) (x :: visited)
        ((emit x).foldl insertIfAbsent acc)

/-- Successors pushed by `PrepSyntax::first`: for a non-terminal, the
first RHS symbol of each of its rules. -/
def firstSucc (rs : RuleSet) (x : Symbol) : List Symbol :=
  if x.isTerminalCore then [] else (rs.rulesFor x).filterMap (fun r => r.rhs.head?)

/-- Set insertions of `PrepSyntax::first`: a popped terminal inserts
itself. -/
def firstEmit (x : Symbol) : List Symbol :=
  if x.isTerminalCore then [x] else []

/-- The symbols `PrepSyntax::first`'s stack can ever hold. -/
def firstUniv (rs : RuleSet) (sym : Symbol) : List Symbol :=
  sym :: rs.rules.filterMap (fun r => r.rhs.head?)

/-- `PrepSyntax::first` of `core/src/item.rs`. -/
def firstSet (rs : RuleSet) (sym : Symbol) : List Symbol :=
  if sym.isTerminalCore then [sym]
  else
    worklist (firstUniv rs sym) (firstSucc rs) firstEmit
      ((firstUniv rs sym).length * (rs.rules.length + 2) + 1) [sym] [] []

/-- Successors pushed by `PrepSyntax::follow`: for each rule `A → α X`
with `X` at its very end (the advanced item is exhausted), push `A`. -/
def followSucc (rs : RuleSet) (x : Symbol) : List Symbol :=
  rs.rules.flatMap (fun r =>
    (List.range r.rhs.length).filterMap (fun p =>
      if r.rhs.get? p = some x ∧ r.rhs.length ≤ p + 1 then some r.lhs else none))

/-- Set insertions of `PrepSyntax::follow`: for each rule occurrence
`A → α X t β` with a core-terminal `t` right after `X`, insert `t`
(`rule.follow` keeps only exhausted or terminal-next advanced items, and
`first(t) = {t}` for a terminal). -/
def followEmit (rs : RuleSet) (x : Symbol) : List Symbol :=
  rs.rules.flatMap (fun r =>
    (List.range r.rhs.length).filterMap (fun p =>
      if r.rhs.get? p = some x then
        match r.rhs.get? (p + 1) with
        | some t => if t.isTerminalCore then some t else none
        | none => none
      else none))

/-- The symbols `PrepSyntax::follow`'s stack can ever hold: the queried
symbol and every rule's left-hand side. -/
def followUniv (rs : RuleSet) (sym : Symbol) : List Symbol :=
  sym :: rs.rules.map (fun r => r.lhs)

/-- Fuel that drains `PrepSyntax::follow`'s work list. -/
def followFuel (rs : RuleSet) (sym : Symbol) : Nat :=
  (followUniv rs sym).length *
    ((rs.rules.map (fun r => r.rhs.length)).sum + 2) + 1

/-- `PrepSyntax::follow` of `core/src/item.rs`: `{<eos>}` for the start
symbol, otherwise the work-list fixed point. -/
def followSet (rs : RuleSet) (sym : Symbol) : List Symbol :=
  if rs.isStart sym then [Symbol.eosS]
  else
    worklist (followUniv rs sym) (followSucc rs) (followEmit rs)
      (followFuel rs sym) [sym] [] []

/-- One insertion of `ItemSet::close`'s inner loop: add the item to the
closure and schedule it unless the set already contains it. -/
def closeInsert (acc : ItemSet × List Item) (it : Item) : ItemSet × List Item :=
  if acc.1.contains it then acc
  else ({ acc.1 with items := acc.1.items ++ [it] }, it :: acc.2)

/-- The work-list loop of `ItemSet::close`: pop an item; when a
non-(core-)terminal stands at its dot, add the dotted items of that
symbol's rules and schedule the new ones.  Fuel-structural. -/
def closeLoopF (rs : RuleSet) : Nat → ItemSet → List Item → ItemSet
  | 0, s, _ => s
  | _ + 1, s, [] => s
  | fuel + 1, s, it :: stk =>
    if it.isSymbolNonTerminal then
      match it.symbol with
      | some sym =>
          let sa := ((rs.rulesFor sym).map Item.at0).foldl closeInsert (s, [])
          closeLoopF rs fuel sa.1 (sa.2 ++ stk)
      | none => closeLoopF rs fuel s stk
    else closeLoopF rs fuel s stk

/-- `ItemSet::add_lookaheads`: replace every closure item by one copy
per symbol of `follow(lhs)`, with that symbol as the lookahead. -/
def ItemSet.addLookaheads (rs : RuleSet) (s : ItemSet) : ItemSet :=
  { s with
    items := s.items.flatMap (fun it =>
      (followSet rs it.rule.lhs).map (fun b => { it with la := [b] })) }

/-- `ItemSet::close` of `core/src/item.rs`: run the closure loop seeded
with the kernel, then (for `K = 1`) annotate the closure items with
follow lookaheads.  The fuel passed covers the kernel plus one push per
grammar rule, which the closure loop never exceeds. -/
def ItemSet.close (rs : RuleSet) (k : Nat) (s : ItemSet) : ItemSet :=
  let sa := closeLoopF rs (s.kernel.length + rs.rules.length + 1) s s.kernel
  if k = 1 then sa.addLookaheads rs else sa

/-- `Graph` of `yalp-core/src/lr/graph.rs`: states and labelled edges. -/
structure Graph where
  sets : List ItemSet
  edges : List (Nat × Symbol × Nat)
  deriving DecidableEq, Repr

namespace Graph

/-- `Graph::new`: the start item set as state 0, no edges. -/
def new (rs : RuleSet) (k : Nat) : Graph :=
  ⟨[rs.startItemSet k], []⟩

/-- `Graph::contains`: some state has the same kernel. -/
def containsSet (g : Graph) (s : ItemSet) : Bool :=
  g.sets.any (fun t => t.eqRust s)

/-- `Graph::get_id`: the id of the first state with the same kernel. -/
def getId (g : Graph) (s : ItemSet) : Option Nat :=
  (g.sets.find? (fun t => t.eqRust s)).map (fun t => t.id)

/-- `get_mut(set_id).close(rules)` in `Graph::build`: close the state in
place (the source panics on a missing id; `List.set` is a no-op then). -/
def closeAt (rs : RuleSet) (k : Nat) (g : Graph) (sid : Nat) : Graph :=
  match g.sets.get? sid with
  | some s => { g with sets := g.sets.set sid (s.close rs k) }
  | none => g

/-- One outgoing transition of `Graph::build`'s inner loop: either find
the state with the same kernel, or allocate a new id, append the state
and enqueue it; in both cases record the edge. -/
def buildEdge (sid : Nat) (acc : Graph × List Nat) (p : Symbol × ItemSet) :
    Graph × List Nat :=
  let (g, q) := acc
  let (sym, kernel) := p
  if ¬ g.containsSet kernel then
    let id := g.sets.length
    (⟨g.sets ++ [{ kernel with id := id }], g.edges ++ [(sid, sym, id)]⟩, q ++ [id])
  else
    ({ g with edges := g.edges ++ [(sid, sym, (g.getId kernel).getD 0)] }, q)

/-- The FIFO work-list loop of `Graph::build`, fuel-structural.  Returns
the graph together with the remaining queue (empty whenever the fuel
sufficed). -/
def buildLoopF (rs : RuleSet) (k : Nat) : Nat → Graph → List Nat → Graph × List Nat
  | 0, g, q => (g, q)
  | _ + 1, g, [] => (g, [])
  | fuel + 1, g, sid :: rest =>
    let g1 := g.closeAt rs k sid
    let trans :=
      match g1.sets.get? sid with
      | some s => s.reachableSets rs
      | none => []
    let gq := trans.foldl (buildEdge sid) (g1, rest)
    buildLoopF rs k fuel gq.1 gq.2

/-- The symbols a lookahead can ever hold: `<eos>` and every symbol
occurring in a rule. -/
def symUniverse (rs : RuleSet) : List Symbol :=
  Symbol.eosS :: rs.rules.flatMap (fun r => r.lhs :: r.rhs)

/-- One iteration of `Graph::build`'s outer loop: close the popped
state, then fold its reachable transitions into the graph and queue. -/
def buildStep (rs : RuleSet) (k : Nat) (sid : Nat) (g : Graph) (rest : List Nat) :
    Graph × List Nat :=
  (match (g.closeAt rs k sid).sets.get? sid with
    | some s => s.reachableSets rs
    | none => []).foldl (Graph.buildEdge sid) (g.closeAt rs k sid, rest)

/-- The item universe every kernel stays inside: any rule of the
grammar, any dot position up to its RHS length, and an empty or
one-symbol lookahead drawn from the grammar's symbols or `<eos>`. -/
def itemUniverse (rs : RuleSet) : List Item :=
  rs.rules.flatMap (fun r =>
    (List.range (r.rhs.length + 1)).flatMap (fun p =>
      ⟨r, p, []⟩ :: ((symUniverse rs).map (fun b => ⟨r, p, [b]⟩))))

/-- Fuel that drains `Graph::build`'s queue: one pop per enqueue, and
there are at most as many enqueues as kernels distinct as sets of
universe items. -/
def buildFuel (rs : RuleSet) : Nat :=
  2 ^ (itemUniverse rs).toFinset.card + 2

/-- `Graph::build` (the wrapper: queue seeded with state 0). -/
def build (rs : RuleSet) (k : Nat) : Graph :=
  (buildLoopF rs k (buildFuel rs) (Graph.new rs k) [0]).1

end Graph

/-- `Action` of `yalp-core/src/lr/action.rs`. -/
inductive Action where
  | shift (state : Nat)
  | reduce (rule : Nat)
  | accept
  deriving DecidableEq, Repr

/-- `ErrorKind` of `core/src/error.rs` (the variants the embedded code
can raise; `Other` wraps a user reducer failure as an opaque string). -/
inductive ErrorKind where
  | unknownRule (id : Nat)
  | duplicatedSymbolId (id : String)
  | unknownSymbol (id : String)
  | unexpectedSymbol (expecting : List String) (got : String)
  | unexpectedEndOfStream
  | shiftReduceConflict (state : Nat) (symbol : Symbol) (conflict : Action × Action)
  | unsupportedAlgorithm
  | other (msg : String)
  deriving DecidableEq, Repr

/-- A Rust `HashMap` modelled as an association list; `insert` replaces
the value of a present key in place. -/
abbrev AList (β : Type) : Type := List (Symbol × β)

namespace AList

/-- Lookup (`HashMap::get`). -/
def lookup (m : AList β) (k : Symbol) : Option β :=
  (List.find? (fun p => p.1 = k) m).map (fun p => p.2)

/-- `HashMap::insert`: replace in place when present, append otherwise. -/
def insert [DecidableEq β] (m : AList β) (k : Symbol) (v : β) : AList β :=
  if (List.find? (fun p => p.1 = k) m).isSome then
    List.map (fun p => if p.1 = k then (k, v) else p) m
  else m ++ [(k, v)]

/-- `HashMap::extend`: insert every pair in order. -/
def extendA [DecidableEq β] (m : AList β) (l : List (Symbol × β)) : AList β :=
  l.foldl (fun m p => insert m p.1 p.2) m

/-- The key list (`HashMap::keys`). -/
def keys (m : AList β) : List Symbol := List.map (fun p => p.1) m

end AList

/-- The map produced by the shift-insertion loop when no conflict is
raised: fold plain inserts over the edges. -/
def shiftActs (edges : List (Symbol × Nat)) (acts : AList Action) : AList Action :=
  edges.foldl (fun m p => m.insert p.1 (Action.shift p.2)) acts

/-- A table row (`Row` of `yalp-core/src/lr/table.rs`). -/
structure Row where
  actions : AList Action
  goto : AList Nat
  deriving DecidableEq, Repr

/-- A transition (`Transition` of `yalp-core/src/lr/transition.rs`):
the state and its outgoing edges resolved to target sets. -/
structure Transition where
  fromSet : ItemSet
  edges : List (Symbol × ItemSet)
  deriving DecidableEq, Repr

/-- The shift-insertion loop shared by `Row::from_transition_lr0/lr1`:
insert `Shift` actions one by one and raise `ShiftReduceConflict` when
the key already maps to a `Reduce`. -/
def shiftFold (stateId : Nat) (edges : List (Symbol × Nat)) (acts : AList Action) :
    Except ErrorKind (AList Action) :=
  match edges with
  | [] => .ok acts
  | (sym, tgt) :: rest =>
    match acts.lookup sym with
    | some (Action.reduce r) =>
        .error (.shiftReduceConflict stateId sym (Action.shift tgt, Action.reduce r))
    | _ => shiftFold stateId rest (acts.insert sym (Action.shift tgt))

/-- `Row::from_transition_lr0`: shifts on non-`<eos>`/`<eps>` terminal
edges, gotos on non-terminal edges, `Accept` on `<eos>` when an item
reaches `<eos>`, then — when the state has an exhausted item — `Reduce`
on every terminal of the grammar. -/
def lr0ShiftEdges (tr : Transition) : List (Symbol × Nat) :=
  (((tr.edges.filter (fun p => p.1.isTerminal)).filter
        (fun p => ¬ p.1.isEos)).filter
      (fun p => ¬ p.1.isEpsilon)).map (fun p => (p.1, p.2.id))

/-- The goto map shared by both row builders: non-terminal edges. -/
def gotoOf (tr : Transition) : AList Nat :=
  AList.extendA [] ((tr.edges.filter (fun p => ¬ p.1.isTerminal)).map
    (fun p => (p.1, p.2.id)))

def rowLr0 (tr : Transition) (rs : RuleSet) : Except ErrorKind Row :=
  match shiftFold tr.fromSet.id (lr0ShiftEdges tr) [] with
  | .error e => .error e
  | .ok acts =>
    let acts :=
      if tr.fromSet.hasItemReachingEos then acts.insert rs.eosSym Action.accept
      else acts
    let acts :=
      if tr.fromSet.hasExhaustedItems then
        acts.extendA ((rs.iterTerminals).map
          (fun sym => (sym, Action.reduce tr.fromSet.getExhaustedRule)))
      else acts
    .ok ⟨acts, gotoOf tr⟩

/-- `Row::from_transition_lr1`: `Accept` first, shifts on terminal
edges, gotos on non-terminal edges, then one `Reduce` per exhausted item
keyed by its lookahead. -/
def lr1Acts0 (tr : Transition) (rs : RuleSet) : AList Action :=
  if tr.fromSet.hasItemReachingEos then AList.insert [] rs.eosSym Action.accept
  else []

def lr1ShiftEdges (tr : Transition) : List (Symbol × Nat) :=
  (tr.edges.filter (fun p => p.1.isTerminal)).map (fun p => (p.1, p.2.id))

def rowLr1 (tr : Transition) (rs : RuleSet) : Except ErrorKind Row :=
  match shiftFold tr.fromSet.id (lr1ShiftEdges tr) (lr1Acts0 tr rs) with
  | .error e => .error e
  | .ok acts =>
    let acts :=
      acts.extendA (tr.fromSet.iterExhaustedItems.filterMap
        (fun i => (i.la.head?).map (fun b => (b, Action.reduce i.rule.id))))
    .ok ⟨acts, gotoOf tr⟩

/-- `Row::from_transition`: dispatch on `K`; any other `K` is
`UnsupportedAlgorithm`. -/
def rowFromTransition (k : Nat) (tr : Transition) (rs : RuleSet) :
    Except ErrorKind Row :=
  if k = 0 then rowLr0 tr rs
  else if k = 1 then rowLr1 tr rs
  else .error .unsupportedAlgorithm

/-- `Graph::iter_transitions`: for each state, its outgoing edges with
targets resolved (the source unwraps the target; missing ids are
dropped here). -/
def Graph.iterTransitions (g : Graph) : List Transition :=
  g.sets.map (fun s =>
    ⟨s, (g.edges.filter (fun e => e.1 = s.id)).filterMap
        (fun e => (g.sets.get? e.2.2).map (fun t => (e.2.1, t)))⟩)

/-- `LrTable` of `yalp-core/src/lr/table.rs`. -/
structure LrTable where
  symbols : List Symbol
  rows : List Row
  deriving DecidableEq, Repr

namespace LrTable

/-- `LrTable::from_graph`: one row per transition, first error wins. -/
def fromGraph (k : Nat) (g : Graph) (rs : RuleSet) : Except ErrorKind LrTable := do
  let rows ← g.iterTransitions.mapM (fun tr => rowFromTransition k tr rs)
  return ⟨rs.symbols, rows⟩

/-- `LrTable::build`: build the graph, then fold it into rows. -/
def build (rs : RuleSet) (k : Nat) : Except ErrorKind LrTable :=
  fromGraph k (Graph.build rs k) rs

/-- `LrTable::action`. -/
def action (t : LrTable) (state : Nat) (sym : Symbol) : Option Action :=
  (t.rows.get? state).bind (fun row => row.actions.lookup sym)

/-- `LrTable::goto`. -/
def goto (t : LrTable) (state : Nat) (sym : Symbol) : Option Nat :=
  (t.rows.get? state).bind (fun row => row.goto.lookup sym)

/-- `LrTable::iter_terminals`: the action keys of the row (the source
indexes `rows[state]` and panics out of range; out-of-range states give
the empty list here). -/
def iterTerminalsAt (t : LrTable) (state : Nat) : List Symbol :=
  match t.rows.get? state with
  | some row => row.actions.keys
  | none => []

/-- `LrTable::iter_non_terminals`: the goto keys of the row. -/
def iterNonTerminalsAt (t : LrTable) (state : Nat) : List Symbol :=
  match t.rows.get? state with
  | some row => row.goto.keys
  | none => []

end LrTable

/-- A lexer token as the driver sees it (`Token::symbol_id`). -/
structure Token where
  symbolId : String
  deriving DecidableEq, Repr

instance [DecidableEq ε] [DecidableEq α] : DecidableEq (Except ε α) := fun x y =>
  match x, y with
  | .ok a, .ok b =>
      if h : a = b then .isTrue (by rw [h])
      else .isFalse (by intro he; cases he; exact h rfl)
  | .error a, .error b =>
      if h : a = b then .isTrue (by rw [h])
      else .isFalse (by intro he; cases he; exact h rfl)
  | .ok _, .error _ => .isFalse (by intro he; cases he)
  | .error _, .ok _ => .isFalse (by intro he; cases he)

/-- The mutable state of `LrParser::parse`'s loop: the state stack, the
value stack, and the not-yet-consumed token stream (whose head is the
cursor; items may be lexer errors). -/
structure DriverState (τ : Type) where
  states : List Nat
  stack : List τ
  tokens : List (Except ErrorKind Token)
  deriving DecidableEq, Repr

/-- The outcome of one iteration of `LrParser::parse`'s loop. -/
inductive StepResult (τ : Type) where
  | cont (d : DriverState τ)
  | done (ast : τ)
  | fail (e : ErrorKind)
  deriving DecidableEq, Repr

/-- Cursor resolution at the top of `LrParser::parse`'s loop: `<eos>`
when the stream is exhausted, the token's grammar symbol otherwise
(`try_get_symbol_by_id`, `UnknownSymbol` when undeclared), and a lexer
error propagates. -/
def resolveSymbol (rs : RuleSet) (tokens : List (Except ErrorKind Token)) :
    Except ErrorKind (Symbol × Option Token) :=
  match tokens.head? with
  | none => .ok (rs.eosSym, none)
  | some (.ok tok) =>
    match rs.symbols.find? (fun s => s.id = tok.symbolId) with
    | some sym => .ok (sym, some tok)
    | none => .error (.unknownSymbol tok.symbolId)
  | some (.error e) => .error e

/-- One iteration of `LrParser::parse` (`yalp-core/src/lr/mod.rs`),
parameterised by the AST type `τ`, its `symbol_id` accessor, the
`From<Token>` conversion and the reducer vector. -/
def parseStep (rs : RuleSet) (table : LrTable) (symId : τ → String)
    (ofTok : Token → τ) (reducers : List (Rule → List τ → Except ErrorKind τ))
    (d : DriverState τ) : StepResult τ :=
  let state := (d.states.getLast?).getD 0
  match resolveSymbol rs d.tokens with
  | .error e => .fail e
  | .ok (sym, tok) =>
    match table.action state sym with
    | none =>
        .fail (.unexpectedSymbol ((table.iterTerminalsAt state).map (fun s => s.id)) sym.id)
    | some (Action.shift next) =>
        if sym.isEos then .cont { d with states := d.states ++ [next] }
        else
          match tok with
          | some t =>
              .cont ⟨d.states ++ [next], d.stack ++ [ofTok t], d.tokens.tail⟩
          | none => .fail (.other "shift with no current token")
    | some (Action.reduce r) =>
        match rs.borrowRule r with
        | none => .fail (.unknownRule r)
        | some rule =>
          let consume := rule.rhs.length
          let drained := d.stack.drop (d.stack.length - consume)
          let remaining := d.stack.take (d.stack.length - consume)
          match (drained.zip rule.rhs).find? (fun p => symId p.1 ≠ p.2.id) with
          | some p => .fail (.unexpectedSymbol [p.2.id] (symId p.1))
          | none =>
            let popped := d.states.take (d.states.length - consume)
            let top := (popped.getLast?).getD 0
            match table.goto top rule.lhs with
            | none =>
                .fail (.unexpectedSymbol
                  ((table.iterNonTerminalsAt top).map (fun s => s.id)) rule.lhs.id)
            | some g =>
              match reducers.get? r with
              | none => .fail (.unknownRule r)
              | some red =>
                match red rule drained with
                | .error e => .fail e
                | .ok ast =>
                  if symId ast ≠ rule.lhs.id then
                    .fail (.unexpectedSymbol [rule.lhs.id] (symId ast))
                  else .cont ⟨popped ++ [g], remaining ++ [ast], d.tokens⟩
    | some Action.accept =>
        match d.stack.getLast? with
        | some a => .done a
        | none => .fail (.other "accept on an empty value stack")

/-! ### Specification-side definition for the closure-lookahead claim -/

/-- FIRST of a symbol string, following the specification's words: the
spec's closure rule annotates added items with `FIRST(β a)`, and the
spec "specifies FIRST propagation only across the leftmost RHS symbol",
so FIRST of a string is the FIRST set of its leftmost symbol. -/
def specFirstString (rs : RuleSet) (syms : List Symbol) : List Symbol :=
  match syms.head? with
  | some x => firstSet rs x
  | none => []

/-! ### Invariants and measures used by the termination and closure
theorems -/

/-- The rules whose dotted start item the set does not yet contain. -/
def missingCount (rs : RuleSet) (s : ItemSet) : Nat :=
  (rs.rules.filter (fun r => ¬ s.contains (Item.at0 r))).length

/-- Every item of the set whose dot precedes a non-(core-)terminal has
all dotted start items of that symbol's rules in the set. -/
def ExpandedSet (rs : RuleSet) (s : ItemSet) : Prop :=
  ∀ j ∈ s.iterItems, ∀ X, j.symbol = some X → X.isTerminalCore = false →
    ∀ r ∈ rs.rulesFor X, s.contains (Item.at0 r) = true

/-- Loop invariant of `ItemSet::close`: every item of the set is either
still scheduled or already expanded. -/
def CloseInv (rs : RuleSet) (s : ItemSet) (stk : List Item) : Prop :=
  ∀ j ∈ s.iterItems, j ∉ stk →
    ∀ X, j.symbol = some X → X.isTerminalCore = false →
      ∀ r ∈ rs.rulesFor X, s.contains (Item.at0 r) = true

/-- The bound on the number of states: kernels are sets of universe
items, and states have pairwise distinct kernels. -/
def stateBound (rs : RuleSet) : Nat :=
  2 ^ (Graph.itemUniverse rs).toFinset.card

/-- Loop invariant of `Graph::build`: all items lie in the universe,
kernels are pairwise distinct as sets, each state's id is its index,
and the edges refer to existing states. -/
def GraphInv (rs : RuleSet) (g : Graph) : Prop :=
  (∀ s ∈ g.sets, ∀ i ∈ s.iterItems, i ∈ Graph.itemUniverse rs) ∧
  g.sets.Pairwise (fun a b => ItemSet.eqRust a b = false) ∧
  (∀ n, ∀ h : n < g.sets.length, (g.sets.get ⟨n, h⟩).id = n) ∧
  (∀ e ∈ g.edges, e.1 < g.sets.length ∧ e.2.2 < g.sets.length)

/-- The decreasing measure of `Graph::build`'s loop. -/
def buildMeasure (rs : RuleSet) (g : Graph) (q : List Nat) : Nat :=
  q.length + (stateBound rs + 1 - g.sets.length)

/-! ### Concrete fixtures -/

/-- An AST node that only records its grammar symbol. -/
structure SAst where
  sym : String
  deriving DecidableEq, Repr

/-- The fixture grammar for the shift/reduce claims:
`<start> → A <eos>; A → a; A → a b`.  After shifting `a` the state
holds the exhausted item `A → a •` and the shiftable item `A → a • b`:
a textbook LR(0) shift/reduce conflict. -/
def conflictG : RuleSet :=
  ⟨[⟨0, Symbol.startS, [Symbol.nterm "A", Symbol.eosS]⟩,
    ⟨1, Symbol.nterm "A", [Symbol.term "a"]⟩,
    ⟨2, Symbol.nterm "A", [Symbol.term "a", Symbol.term "b"]⟩],
   [Symbol.startS, Symbol.eosS, Symbol.nterm "A", Symbol.term "a", Symbol.term "b"]⟩

/-- The LR(0) table of `conflictG` (its construction succeeds; see the
shift/reduce claim). -/
def conflictTable : LrTable :=
  (LrTable.build conflictG 0).toOption.getD ⟨[], []⟩

/-- The fixture grammar for the closure-lookahead claim:
`S → A b <eos>; S → c A d; A → a`.  `FOLLOW(A) = {b, d}` while the
rule occurrence of `A` visible from the start state is followed by `b`
only. -/
def followG : RuleSet :=
  ⟨[⟨0, Symbol.nterm "S", [Symbol.nterm "A", Symbol.term "b", Symbol.eosS]⟩,
    ⟨1, Symbol.nterm "S", [Symbol.term "c", Symbol.nterm "A", Symbol.term "d"]⟩,
    ⟨2, Symbol.nterm "A", [Symbol.term "a"]⟩],
   [Symbol.nterm "S", Symbol.nterm "A", Symbol.term "a", Symbol.term "b",
    Symbol.term "c", Symbol.term "d", Symbol.eosS]⟩

/-- The shift/reduce state of `conflictG`'s LR(0) graph: kernel
`{A → a •, A → a • b}` (state 2). -/
def conflictState2 : ItemSet :=
  ⟨2, [⟨⟨1, Symbol.nterm "A", [Symbol.term "a"]⟩, 1, []⟩,
       ⟨⟨2, Symbol.nterm "A", [Symbol.term "a", Symbol.term "b"]⟩, 1, []⟩], []⟩

/-- Its successor on `b`: kernel `{A → a b •}` (state 3). -/
def conflictState3 : ItemSet :=
  ⟨3, [⟨⟨2, Symbol.nterm "A", [Symbol.term "a", Symbol.term "b"]⟩, 2, []⟩], []⟩

/-- The transition out of state 2 (one shift edge on `b`). -/
def conflictTr : Transition := ⟨conflictState2, [(Symbol.term "b", conflictState3)]⟩

/-- The LR(0) row built from that transition. -/
def conflictRow : Row := (rowLr0 conflictTr conflictG).toOption.getD ⟨[], []⟩

/-- A state holding two distinct exhausted items (a reduce/reduce
situation): `{A → a •, A → a b •}`. -/
def rrState : ItemSet :=
  ⟨0, [⟨⟨1, Symbol.nterm "A", [Symbol.term "a"]⟩, 1, []⟩,
       ⟨⟨2, Symbol.nterm "A", [Symbol.term "a", Symbol.term "b"]⟩, 2, []⟩], []⟩

/-- A transition out of the reduce/reduce state (no edges). -/
def rrTr : Transition := ⟨rrState, []⟩

/-- A driver state sitting in state 0 of `conflictTable` with the
undeclared-for-state-0 token `b` as the cursor. -/
def stuckDriverState : DriverState SAst := ⟨[0], [], [.ok ⟨"b"⟩]⟩

/-- Row 0 of `conflictTable`. -/
def conflictRow0 : Row := (conflictTable.rows.get? 0).getD ⟨[], []⟩

/-- A driver state about to reduce rule 1 of `conflictG`: states
`[0, 2]`, value stack `[a]`, token stream exhausted. -/
def reduceDriverState : DriverState SAst := ⟨[0, 2], [⟨"a"⟩], []⟩

/-- A reducer that rebuilds the node for the rule's left-hand side. -/
def lhsReducer (r : Rule) (_ : List SAst) : Except ErrorKind SAst :=
  .ok ⟨r.lhs.id⟩

/-- A reducer that returns a node with a wrong symbol id. -/
def wrongReducer (_ : Rule) (_ : List SAst) : Except ErrorKind SAst :=
  .ok ⟨"Z"⟩

/-! ## Association-list lemmas -/

theorem find_replace_eq [DecidableEq β] (t : List (Symbol × β)) (k : Symbol) (v : β) :
    List.find? (fun q => q.1 = k) (t.map (fun p => if p.1 = k then (k, v) else p)) =
      (List.find? (fun q => q.1 = k) t).map (fun _ => (k, v)) := by
  induction t with
  | nil => simp
  | cons p t ih => by_cases hp : p.1 = k <;> simp [List.find?_cons, hp, ih]

theorem find_replace_ne [DecidableEq β] (t : List (Symbol × β)) (k k' : Symbol)
    (v : β) (h : ¬ k' = k) :
    List.find? (fun q => q.1 = k') (t.map (fun p => if p.1 = k then (k, v) else p)) =
      List.find? (fun q => q.1 = k') t := by
  induction t with
  | nil => simp
  | cons p t ih =>
      by_cases hp : p.1 = k
      · have hk : ¬ (k = k') := fun e => h e.symm
        have hp' : ¬ (p.1 = k') := by rw [hp]; exact hk
        simp [List.find?_cons, hp, hk, hp', ih]
      · by_cases hp' : p.1 = k' <;> simp [List.find?_cons, hp, hp', h, ih]

theorem find_append_pair [DecidableEq β] (m : List (Symbol × β)) (k k' : Symbol) (v : β) :
    List.find? (fun q => q.1 = k') (m ++ [(k, v)]) =
      ((List.find? (fun q => q.1 = k') m).orElse
        (fun _ => if k' = k then some (k, v) else none)) := by
  induction m with
  | nil =>
      by_cases h : k' = k
      · simp [List.find?_cons, h, Option.orElse]
      · have : ¬ (k = k') := fun e => h e.symm
        simp [List.find?_cons, this, h, Option.orElse]
  | cons p t ih =>
      by_cases hp : p.1 = k' <;> simp [List.find?_cons, hp, ih, Option.orElse]

theorem alist_lookup_insert [DecidableEq β] (m : AList β) (k k' : Symbol) (v : β) :
    (AList.insert m k v).lookup k' = if k' = k then some v else m.lookup k' := by
  unfold AList.insert AList.lookup
  by_cases hsome : (List.find? (fun p => p.1 = k) m).isSome
  · simp only [hsome, if_true]
    by_cases hk : k' = k
    · subst hk
      rw [find_replace_eq]
      rcases Option.isSome_iff_exists.mp hsome with ⟨q, hq⟩
      simp [hq]
    · rw [find_replace_ne _ _ _ _ hk]
      simp [hk]
  · rw [if_neg hsome, find_append_pair]
    by_cases hk : k' = k
    · subst hk
      have hnone : List.find? (fun p => p.1 = k') m = none := by
        cases hfind : List.find? (fun p => p.1 = k') m
        · rfl
        · rw [hfind] at hsome; simp at hsome
      simp [hnone, Option.orElse]
    · cases hfind : List.find? (fun p => p.1 = k') m <;>
        simp [hfind, hk, Option.orElse]

theorem alist_lookup_extendA_const [DecidableEq β] (l : List Symbol) (m : AList β)
    (v : β) (k : Symbol) :
    (AList.extendA m (l.map (fun s => (s, v)))).lookup k =
      if k ∈ l then some v else m.lookup k := by
  induction l generalizing m with
  | nil => simp [AList.extendA]
  | cons x t ih =>
      have hstep : AList.extendA m ((x :: t).map (fun s => (s, v))) =
          AList.extendA (AList.insert m x v) (t.map (fun s => (s, v))) := rfl
      rw [hstep, ih]
      by_cases hkt : k ∈ t
      · simp [hkt, List.mem_cons]
      · by_cases hkx : k = x <;>
          simp [hkt, hkx, alist_lookup_insert, List.mem_cons]

theorem alist_lookup_mem [DecidableEq β] (m : AList β) (k : Symbol) (v : β)
    (h : m.lookup k = some v) : (k, v) ∈ m := by
  induction m with
  | nil => simp [AList.lookup] at h
  | cons p t ih =>
      by_cases hp : p.1 = k
      · obtain ⟨a, b⟩ := p
        simp only [AList.lookup, List.find?_cons] at h
        simp only at hp
        simp [hp] at h
        subst hp
        subst h
        exact List.mem_cons_self _ _
      · simp only [AList.lookup, List.find?_cons] at h
        simp [hp] at h
        exact List.mem_cons_of_mem _ (ih (by simpa [AList.lookup] using h))

theorem alist_mem_insert [DecidableEq β] (m : AList β) (k : Symbol) (v : β)
    (p : Symbol × β) (h : p ∈ AList.insert m k v) : p ∈ m ∨ p = (k, v) := by
  unfold AList.insert at h
  by_cases hsome : (List.find? (fun q => q.1 = k) m).isSome
  · simp only [hsome, if_true] at h
    rcases List.mem_map.mp h with ⟨q, hq, hfq⟩
    by_cases hqk : q.1 = k
    · right; rw [if_pos hqk] at hfq; exact hfq.symm
    · left; rw [if_neg hqk] at hfq; exact hfq ▸ hq
  · simp only [hsome, if_false] at h
    rcases List.mem_append.mp h with h' | h'
    · exact .inl h'
    · right; simpa using h'

theorem alist_mem_extendA [DecidableEq β] (l : List (Symbol × β)) (m : AList β)
    (p : Symbol × β) (h : p ∈ AList.extendA m l) : p ∈ m ∨ p ∈ l := by
  induction l generalizing m with
  | nil => exact .inl h
  | cons q t ih =>
      have h' : p ∈ AList.extendA (AList.insert m q.1 q.2) t := h
      rcases ih _ h' with h'' | h''
      · rcases alist_mem_insert _ _ _ _ h'' with h3 | h3
        · exact .inl h3
        · right
          rw [h3]
          exact List.mem_cons_self _ _
      · right; exact List.mem_cons_of_mem _ h''

theorem alist_keys_iff (m : AList β) (k : Symbol) :
    (∃ v, m.lookup k = some v) ↔ k ∈ m.keys := by
  induction m with
  | nil => simp [AList.lookup, AList.keys]
  | cons p t ih =>
      by_cases hp : p.1 = k
      · constructor
        · intro _
          simp only [AList.keys, List.map_cons, List.mem_cons]
          exact .inl hp.symm
        · intro _
          exact ⟨p.2, by simp [AList.lookup, List.find?_cons, hp]⟩
      · have hmk : ¬ k = p.1 := fun e => hp e.symm
        simp only [AList.keys, List.map_cons, List.mem_cons]
        constructor
        · intro ⟨v, hv⟩
          simp only [AList.lookup, List.find?_cons] at hv
          simp [hp] at hv
          exact .inr (ih.mp ⟨v, by simpa [AList.lookup] using hv⟩)
        · intro h
          rcases h with h | h
          · exact absurd h hmk
          · rcases ih.mpr h with ⟨v, hv⟩
            refine ⟨v, ?_⟩
            simp only [AList.lookup, List.find?_cons]
            simp [hp]
            simpa [AList.lookup] using hv

/-! ## Shift-loop lemmas: the conflict check can only fire on an
existing `Reduce` entry, and the loop never creates one -/

theorem shiftFold_ok (sid : Nat) (edges : List (Symbol × Nat)) (acts : AList Action)
    (hnr : ∀ p ∈ acts, ∀ rid, p.2 ≠ Action.reduce rid) :
    shiftFold sid edges acts = .ok (shiftActs edges acts) := by
  induction edges generalizing acts with
  | nil => rfl
  | cons e rest ih =>
      obtain ⟨sym, tgt⟩ := e
      have hstep : shiftActs ((sym, tgt) :: rest) acts =
          shiftActs rest (AList.insert acts sym (Action.shift tgt)) := rfl
      have hnr' : ∀ p ∈ AList.insert acts sym (Action.shift tgt), ∀ rid,
          p.2 ≠ Action.reduce rid := by
        intro p hp rid
        rcases alist_mem_insert _ _ _ _ hp with h | h
        · exact hnr p h rid
        · rw [h]; simp
      cases hl : AList.lookup acts sym with
      | none => rw [hstep]; simpa [shiftFold, hl] using ih _ hnr'
      | some a =>
          cases a with
          | reduce r =>
              exact absurd rfl (hnr (sym, .reduce r) (alist_lookup_mem _ _ _ hl) r)
          | shift n => rw [hstep]; simpa [shiftFold, hl] using ih _ hnr'
          | accept => rw [hstep]; simpa [shiftFold, hl] using ih _ hnr'

theorem shiftActs_mem (edges : List (Symbol × Nat)) (acts : AList Action)
    (p : Symbol × Action) (h : p ∈ shiftActs edges acts) :
    p ∈ acts ∨ ∃ sym n, p = (sym, Action.shift n) := by
  induction edges generalizing acts with
  | nil => exact .inl h
  | cons e rest ih =>
      rcases ih _ h with h' | h'
      · rcases alist_mem_insert _ _ _ _ h' with h'' | h''
        · exact .inl h''
        · exact .inr ⟨e.1, e.2, h''⟩
      · exact .inr h'

theorem rowLr0_never_fails (tr : Transition) (rs : RuleSet) :
    ∃ row, rowLr0 tr rs = .ok row := by
  cases hrow : rowLr0 tr rs with
  | ok row => exact ⟨row, rfl⟩
  | error e =>
      exfalso
      unfold rowLr0 at hrow
      rw [shiftFold_ok _ _ _ (by intro p hp; cases hp)] at hrow
      simp at hrow

theorem rowLr1_never_fails (tr : Transition) (rs : RuleSet) :
    ∃ row, rowLr1 tr rs = .ok row := by
  have hnr : ∀ p ∈ lr1Acts0 tr rs, ∀ rid, p.2 ≠ Action.reduce rid := by
    intro p hp rid
    unfold lr1Acts0 at hp
    by_cases hae : tr.fromSet.hasItemReachingEos
    · simp only [hae, if_true] at hp
      rcases alist_mem_insert _ _ _ _ hp with h | h
      · cases h
      · rw [h]; simp
    · simp only [hae, if_false] at hp
      cases hp
  cases hrow : rowLr1 tr rs with
  | ok row => exact ⟨row, rfl⟩
  | error e =>
      exfalso
      unfold rowLr1 at hrow
      rw [shiftFold_ok _ _ _ hnr] at hrow
      simp at hrow

theorem rowLr0_eq (tr : Transition) (rs : RuleSet) :
    rowLr0 tr rs = .ok
      ⟨(let acts := shiftActs (lr0ShiftEdges tr) [];
        let acts :=
          if tr.fromSet.hasItemReachingEos then acts.insert rs.eosSym Action.accept
          else acts;
        if tr.fromSet.hasExhaustedItems then
          acts.extendA ((rs.iterTerminals).map
            (fun sym => (sym, Action.reduce tr.fromSet.getExhaustedRule)))
        else acts),
       gotoOf tr⟩ := by
  unfold rowLr0
  rw [shiftFold_ok _ _ _ (by intro p hp; cases hp)]

/-! ## C8: symbol equality and hashing -/

/-- C8, counterexample: the claim says the tag plays no role in symbol
equality, but two symbols sharing the identifier `x` with different
tags are unequal under the derived equality. -/
theorem symbol_eq_ignores_tag_false :
    (Symbol.term "x").id = (Symbol.nterm "x").id ∧
      Symbol.term "x" ≠ Symbol.nterm "x" := by decide

/-- C8, amended: two `Symbol` values are equal exactly when both their
identifier strings and their tags are equal, and symbols with equal
identifiers have equal hashes (the `Hash` impl hashes the identifier
alone). -/
theorem symbol_eq_iff_id_and_kind (s1 s2 : Symbol) :
    (s1 = s2 ↔ s1.id = s2.id ∧ s1.kind = s2.kind) ∧
    (s1.id = s2.id → Symbol.symbolHash s1 = Symbol.symbolHash s2) := by
  constructor
  · constructor
    · intro h; rw [h]; exact ⟨rfl, rfl⟩
    · intro ⟨h1, h2⟩; cases s1; cases s2; simp_all
  · intro h; unfold Symbol.symbolHash; rw [h]

/-- Witness for the amended C8 theorem at concrete symbols. -/
theorem symbol_eq_iff_id_and_kind_witness :
    Symbol.symbolHash (Symbol.term "x") = Symbol.symbolHash (Symbol.nterm "x") :=
  (symbol_eq_iff_id_and_kind (Symbol.term "x") (Symbol.nterm "x")).2 rfl

/-! ## C3: an exhausted LR(0) state reduces on every terminal -/

/-- C3: for every state whose LR(0) row is built from a transition, if
any item of the state is exhausted then the row's ACTION maps every
terminal symbol of the grammar to `Reduce` of the exhausted item's rule
(the first exhausted item in iteration order). -/
theorem lr0_exhausted_row_reduces_every_terminal (tr : Transition) (rs : RuleSet)
    (row : Row) (hrow : rowLr0 tr rs = .ok row)
    (hex : tr.fromSet.hasExhaustedItems = true)
    (s : Symbol) (hs : s ∈ rs.symbols) (hterm : s.isTerminal = true) :
    row.actions.lookup s = some (Action.reduce tr.fromSet.getExhaustedRule) := by
  rw [rowLr0_eq] at hrow
  have hrow' := (Except.ok.inj hrow).symm
  subst hrow'
  simp only [hex, if_true]
  rw [alist_lookup_extendA_const]
  simp [RuleSet.iterTerminals, List.mem_filter, hs, hterm]

/-- Witness for C3 at the concrete shift/reduce state of `conflictG`. -/
theorem lr0_exhausted_row_witness :
    conflictRow.actions.lookup (Symbol.term "b") =
      some (Action.reduce conflictTr.fromSet.getExhaustedRule) :=
  lr0_exhausted_row_reduces_every_terminal conflictTr conflictG conflictRow
    (by decide) (by decide) (Symbol.term "b") (by decide) (by decide)

/-! ## C10: a reduce/reduce state raises no error -/

/-- C10: when a state holds two or more exhausted items, LR(0) row
construction reports no error; every universal reduce entry uses the
rule of the first exhausted item in iteration order, and no table entry
carries any other rule's reduce. -/
theorem lr0_reduce_reduce_silent (tr : Transition) (rs : RuleSet)
    (i1 : Item) (hfind : tr.fromSet.iterItems.find? Item.isExhausted = some i1)
    (i2 : Item) (hi2 : i2 ∈ tr.fromSet.iterItems) (hex2 : i2.isExhausted = true)
    (hne : i2 ≠ i1) :
    ∃ row, rowLr0 tr rs = .ok row ∧
      (∀ s ∈ rs.symbols, s.isTerminal = true →
        row.actions.lookup s = some (Action.reduce i1.rule.id)) ∧
      (∀ s rid, row.actions.lookup s = some (Action.reduce rid) →
        rid = i1.rule.id) := by
  have hex : tr.fromSet.hasExhaustedItems = true := by
    unfold ItemSet.hasExhaustedItems
    exact List.any_eq_true.mpr ⟨i2, hi2, hex2⟩
  have hger : tr.fromSet.getExhaustedRule = i1.rule.id := by
    unfold ItemSet.getExhaustedRule
    rw [hfind]
    rfl
  refine ⟨_, rowLr0_eq tr rs, ?_, ?_⟩
  · intro s hs hterm
    simp only [hex, if_true]
    rw [alist_lookup_extendA_const, hger]
    simp [RuleSet.iterTerminals, List.mem_filter, hs, hterm]
  · intro s rid hlk
    simp only [hex, if_true] at hlk
    have hmem := alist_lookup_mem _ _ _ hlk
    rcases alist_mem_extendA _ _ _ hmem with hpre | hmap
    · exfalso
      by_cases hae : tr.fromSet.hasItemReachingEos
      · simp only [hae, if_true] at hpre
        rcases alist_mem_insert _ _ _ _ hpre with h | h
        · rcases shiftActs_mem _ _ _ h with h' | ⟨sym, n, h'⟩
          · cases h'
          · simp at h'
        · simp at h
      · simp only [hae, if_false] at hpre
        rcases shiftActs_mem _ _ _ hpre with h' | ⟨sym, n, h'⟩
        · cases h'
        · simp at h'
    · rcases List.mem_map.mp hmap with ⟨sym, _, hsym⟩
      have : Action.reduce tr.fromSet.getExhaustedRule = Action.reduce rid := by
        have := congrArg Prod.snd hsym
        simpa using this
      rw [hger] at this
      exact (Action.reduce.inj this).symm

/-- Witness for C10 at a state with two exhausted items. -/
theorem lr0_reduce_reduce_witness :
    ∃ row, rowLr0 rrTr conflictG = .ok row ∧
      (∀ s ∈ conflictG.symbols, s.isTerminal = true →
        row.actions.lookup s = some (Action.reduce 1)) ∧
      (∀ s rid, row.actions.lookup s = some (Action.reduce rid) → rid = 1) := by
  have h := lr0_reduce_reduce_silent rrTr conflictG
    ⟨⟨1, Symbol.nterm "A", [Symbol.term "a"]⟩, 1, []⟩ (by decide)
    ⟨⟨2, Symbol.nterm "A", [Symbol.term "a", Symbol.term "b"]⟩, 2, []⟩
    (by decide) (by decide) (by decide)
  simpa using h

/-! ## C9: unsupported lookahead widths -/

theorem buildEdge_sets_len (sid : Nat) (acc : Graph × List Nat) (p : Symbol × ItemSet) :
    acc.1.sets.length ≤ ((Graph.buildEdge sid acc p).1).sets.length := by
  unfold Graph.buildEdge
  by_cases h : acc.1.containsSet p.2 <;> simp [h]

theorem foldl_buildEdge_sets_len (l : List (Symbol × ItemSet)) (sid : Nat)
    (acc : Graph × List Nat) :
    acc.1.sets.length ≤ ((l.foldl (Graph.buildEdge sid) acc).1).sets.length := by
  induction l generalizing acc with
  | nil => exact le_refl _
  | cons p t ih => exact le_trans (buildEdge_sets_len sid acc p) (ih _)

theorem buildLoopF_sets_ne (rs : RuleSet) (k fuel : Nat) (g : Graph) (q : List Nat)
    (h : g.sets ≠ []) : ((Graph.buildLoopF rs k fuel g q).1).sets ≠ [] := by
  induction fuel generalizing g q with
  | zero => exact h
  | succ fuel ih =>
      cases q with
      | nil => exact h
      | cons sid rest =>
          apply ih
          have h1 : (g.closeAt rs k sid).sets.length = g.sets.length := by
            unfold Graph.closeAt
            cases g.sets.get? sid <;> simp
          have h2 := foldl_buildEdge_sets_len
            (match (g.closeAt rs k sid).sets.get? sid with
              | some s => s.reachableSets rs
              | none => []) sid ((g.closeAt rs k sid), rest)
          intro hempty
          rw [hempty] at h2
          simp at h2
          rw [h2] at h1
          exact h (List.length_eq_zero.mp h1.symm)

theorem rowFromTransition_unsupported (k : Nat) (hk0 : k ≠ 0) (hk1 : k ≠ 1)
    (tr : Transition) (rs : RuleSet) :
    rowFromTransition k tr rs = .error .unsupportedAlgorithm := by
  unfold rowFromTransition
  simp [hk0, hk1]

/-- C9: for every requested lookahead width other than 0 and 1, table
construction fails with `UnsupportedAlgorithm` and no table is
produced. -/
theorem build_unsupported_k (rs : RuleSet) (k : Nat) (hk0 : k ≠ 0) (hk1 : k ≠ 1) :
    LrTable.build rs k = .error .unsupportedAlgorithm := by
  unfold LrTable.build LrTable.fromGraph
  have hne : (Graph.build rs k).sets ≠ [] := by
    apply buildLoopF_sets_ne
    simp [Graph.new]
  obtain ⟨s, ss, hss⟩ := List.exists_cons_of_ne_nil hne
  unfold Graph.iterTransitions
  rw [hss]
  simp [List.mapM_cons, rowFromTransition_unsupported k hk0 hk1,
    List.mapM.loop, Bind.bind, Except.bind, Functor.map, Except.map]

/-- Witness for C9: requesting `k = 2` on the fixture grammar. -/
theorem build_unsupported_k_witness :
    LrTable.build conflictG 2 = .error .unsupportedAlgorithm :=
  build_unsupported_k conflictG 2 (by decide) (by decide)

/-! ## C5: missing ACTION entries surface the expected-terminal list -/

/-- C5: whenever the current state and lookahead have no ACTION entry,
the driver fails with `UnexpectedSymbol` whose `got` is the lookahead's
identifier and whose `expecting` lists exactly the symbols with ACTION
entries in the current row. -/
theorem missing_action_unexpected_symbol (rs : RuleSet) (table : LrTable)
    {τ : Type} (symId : τ → String) (ofTok : Token → τ)
    (reducers : List (Rule → List τ → Except ErrorKind τ))
    (d : DriverState τ) (sym : Symbol) (tok : Option Token)
    (hres : resolveSymbol rs d.tokens = .ok (sym, tok))
    (row : Row) (hrow : table.rows.get? ((d.states.getLast?).getD 0) = some row)
    (hnone : row.actions.lookup sym = none) :
    parseStep rs table symId ofTok reducers d =
      .fail (.unexpectedSymbol (row.actions.keys.map (fun s => s.id)) sym.id) ∧
    (∀ t : Symbol, t ∈ row.actions.keys ↔ ∃ a, row.actions.lookup t = some a) := by
  constructor
  · have hact : table.action ((d.states.getLast?).getD 0) sym = none := by
      unfold LrTable.action
      rw [hrow]
      simpa using hnone
    simp only [parseStep, hres, hact, LrTable.iterTerminalsAt, hrow]
  · intro t
    exact (alist_keys_iff row.actions t).symm

/-- Witness for C5: token `b` in state 0 of the fixture table. -/
theorem missing_action_witness :
    parseStep conflictG conflictTable SAst.sym (fun t => ⟨t.symbolId⟩)
        [lhsReducer, lhsReducer, lhsReducer] stuckDriverState =
      .fail (.unexpectedSymbol (conflictRow0.actions.keys.map (fun s => s.id))
        (Symbol.term "b").id) ∧
    (∀ t : Symbol, t ∈ conflictRow0.actions.keys ↔
      ∃ a, conflictRow0.actions.lookup t = some a) :=
  missing_action_unexpected_symbol conflictG conflictTable SAst.sym
    (fun t => ⟨t.symbolId⟩) [lhsReducer, lhsReducer, lhsReducer]
    stuckDriverState (Symbol.term "b") (some ⟨"b"⟩) (by decide)
    conflictRow0 (by decide) (by decide)

/-! ## C4: the reduce step validates the drained nodes and the reducer
output -/

/-- C4: during a `Reduce(r)` step, the top `|RHS(r)|` AST nodes are
drained and matched against the rule's RHS — a mismatch fails with
`UnexpectedSymbol` no matter which reducers are installed (so reducer
`r` is never invoked) — and after the reducer returns, an output whose
symbol id differs from `LHS(r)` fails with `UnexpectedSymbol` and the
step pushes nothing. -/
theorem reduce_step_validation (rs : RuleSet) (table : LrTable)
    {τ : Type} (symId : τ → String) (ofTok : Token → τ)
    (d : DriverState τ) (sym : Symbol) (tok : Option Token) (r : Nat) (rule : Rule)
    (hres : resolveSymbol rs d.tokens = .ok (sym, tok))
    (hact : table.action ((d.states.getLast?).getD 0) sym = some (.reduce r))
    (hrule : rs.borrowRule r = some rule) :
    (∀ p : τ × Symbol,
      ((d.stack.drop (d.stack.length - rule.rhs.length)).zip rule.rhs).find?
          (fun p => symId p.1 ≠ p.2.id) = some p →
      ∀ reducers, parseStep rs table symId ofTok reducers d =
        .fail (.unexpectedSymbol [p.2.id] (symId p.1))) ∧
    (((d.stack.drop (d.stack.length - rule.rhs.length)).zip rule.rhs).find?
        (fun p => symId p.1 ≠ p.2.id) = none →
      ∀ g, table.goto
          (((d.states.take (d.states.length - rule.rhs.length)).getLast?).getD 0)
          rule.lhs = some g →
      ∀ reducers red ast, reducers.get? r = some red →
        red rule (d.stack.drop (d.stack.length - rule.rhs.length)) = .ok ast →
        symId ast ≠ rule.lhs.id →
        parseStep rs table symId ofTok reducers d =
          .fail (.unexpectedSymbol [rule.lhs.id] (symId ast))) := by
  constructor
  · intro p hfind reducers
    simp only [parseStep, hres, hact, hrule, hfind]
  · intro hfind g hg reducers red ast hred hout hne
    simp only [parseStep, hres, hact, hrule, hfind, hg, hred, hout]
    simp [hne]

set_option maxRecDepth 4000 in
/-- Witness for C4 at a concrete reduce step whose reducer returns a
wrongly-labelled node. -/
theorem reduce_step_validation_witness :
    parseStep conflictG conflictTable SAst.sym (fun t => ⟨t.symbolId⟩)
        [wrongReducer, wrongReducer, wrongReducer] reduceDriverState =
      .fail (.unexpectedSymbol [(Symbol.nterm "A").id] "Z") :=
  (reduce_step_validation conflictG conflictTable SAst.sym (fun t => ⟨t.symbolId⟩)
      reduceDriverState Symbol.eosS none 1 ⟨1, Symbol.nterm "A", [Symbol.term "a"]⟩
      (by decide) (by decide) (by decide)).2
    (by decide) 1 (by decide) [wrongReducer, wrongReducer, wrongReducer]
    wrongReducer ⟨"Z"⟩ rfl rfl (by decide)

/-! ## C1: the shift/reduce conflict check is dead code -/

/-- C1: on the grammar `<start> → A <eos>; A → a; A → a b`, state 2 of
the LR(0) graph has both a shift edge on `b` and an exhausted item, yet
`LrTable::build` returns a table instead of `ShiftReduceConflict`: the
reduce entries are inserted after the shift loop and silently overwrite
the shift on `b`. -/
theorem conflict_not_reported :
    (LrTable.build conflictG 0).isOk = true ∧
    (2, Symbol.term "b", 3) ∈ (Graph.build conflictG 0).edges ∧
    ((Graph.build conflictG 0).sets.get? 2).map ItemSet.hasExhaustedItems =
      some true ∧
    (LrTable.build conflictG 0).toOption.map
        (fun t => t.action 2 (Symbol.term "b")) =
      some (some (Action.reduce 1)) := by decide

/-! ## Closure-loop lemmas -/

theorem closeInsert_kernel (acc : ItemSet × List Item) (it : Item) :
    ((closeInsert acc it).1).kernel = acc.1.kernel := by
  unfold closeInsert
  by_cases h : acc.1.contains it <;> simp [h]

theorem closeInsert_id (acc : ItemSet × List Item) (it : Item) :
    ((closeInsert acc it).1).id = acc.1.id := by
  unfold closeInsert
  by_cases h : acc.1.contains it <;> simp [h]

theorem closeInsert_mono (acc : ItemSet × List Item) (it x : Item)
    (h : acc.1.contains x = true) : ((closeInsert acc it).1).contains x = true := by
  unfold closeInsert
  by_cases hc : acc.1.contains it
  · simpa [hc] using h
  · simp only [hc]
    unfold ItemSet.contains at h ⊢
    simp only [List.mem_append] at *
    rcases (by simpa using h : x ∈ acc.1.kernel ∨ x ∈ acc.1.items) with h' | h' <;>
      simp [h']

theorem closeInsert_contains_self (acc : ItemSet × List Item) (it : Item) :
    ((closeInsert acc it).1).contains it = true := by
  unfold closeInsert
  by_cases hc : acc.1.contains it = true
  · rw [if_pos hc]; exact hc
  · rw [if_neg hc]
    simp [ItemSet.contains]

theorem closeInsert_items_stack (acc : ItemSet × List Item) (it x : Item)
    (h : x ∈ (closeInsert acc it).1.items) :
    x ∈ acc.1.items ∨ x ∈ (closeInsert acc it).2 := by
  unfold closeInsert at h ⊢
  by_cases hc : acc.1.contains it = true
  · rw [if_pos hc] at h ⊢; exact .inl h
  · rw [if_neg hc] at h ⊢
    rcases List.mem_append.mp h with h' | h'
    · exact .inl h'
    · right
      simp at h'
      simp [h']

theorem closeInsert_stack_sub (acc : ItemSet × List Item) (it x : Item)
    (h : x ∈ (closeInsert acc it).2) : x ∈ acc.2 ∨ x = it := by
  unfold closeInsert at h
  by_cases hc : acc.1.contains it
  · simp [hc] at h; exact .inl h
  · simp only [hc] at h
    rcases List.mem_cons.mp h with h | h
    · exact .inr h
    · exact .inl h

theorem foldInsert_kernel (l : List Item) (acc : ItemSet × List Item) :
    ((l.foldl closeInsert acc).1).kernel = acc.1.kernel := by
  induction l generalizing acc with
  | nil => rfl
  | cons it t ih => rw [List.foldl_cons, ih, closeInsert_kernel]

theorem foldInsert_id (l : List Item) (acc : ItemSet × List Item) :
    ((l.foldl closeInsert acc).1).id = acc.1.id := by
  induction l generalizing acc with
  | nil => rfl
  | cons it t ih => rw [List.foldl_cons, ih, closeInsert_id]

theorem foldInsert_mono (l : List Item) (acc : ItemSet × List Item) (x : Item)
    (h : acc.1.contains x = true) : ((l.foldl closeInsert acc).1).contains x = true := by
  induction l generalizing acc with
  | nil => exact h
  | cons it t ih => exact ih _ (closeInsert_mono acc it x h)

theorem foldInsert_contains (l : List Item) (acc : ItemSet × List Item)
    (it : Item) (hit : it ∈ l) : ((l.foldl closeInsert acc).1).contains it = true := by
  induction l generalizing acc with
  | nil => cases hit
  | cons a t ih =>
      rcases List.mem_cons.mp hit with h | h
      · subst h
        exact foldInsert_mono t _ it (closeInsert_contains_self acc it)
      · exact ih _ h

theorem foldInsert_stack_grows (l : List Item) (acc : ItemSet × List Item) (x : Item)
    (h : x ∈ acc.2) : x ∈ (l.foldl closeInsert acc).2 := by
  induction l generalizing acc with
  | nil => exact h
  | cons it t ih =>
      apply ih
      unfold closeInsert
      by_cases hc : acc.1.contains it <;> simp [hc, h]

theorem foldInsert_items_stack (l : List Item) (acc : ItemSet × List Item) (x : Item)
    (h : x ∈ (l.foldl closeInsert acc).1.items) :
    x ∈ acc.1.items ∨ x ∈ (l.foldl closeInsert acc).2 := by
  induction l generalizing acc with
  | nil => exact .inl h
  | cons it t ih =>
      rcases ih _ h with h' | h'
      · rcases closeInsert_items_stack acc it x h' with h'' | h''
        · exact .inl h''
        · exact .inr (foldInsert_stack_grows t _ x h'')
      · exact .inr h'

theorem foldInsert_stack_sub (l : List Item) (acc : ItemSet × List Item) (x : Item)
    (h : x ∈ (l.foldl closeInsert acc).2) : x ∈ acc.2 ∨ x ∈ l := by
  induction l generalizing acc with
  | nil => exact .inl h
  | cons it t ih =>
      rcases ih _ h with h' | h'
      · rcases closeInsert_stack_sub acc it x h' with h'' | h''
        · exact .inl h''
        · exact .inr (h'' ▸ List.mem_cons_self _ _)
      · exact .inr (List.mem_cons_of_mem _ h')

theorem closeInsert_items_sub (acc : ItemSet × List Item) (it x : Item)
    (h : x ∈ (closeInsert acc it).1.items) : x ∈ acc.1.items ∨ x = it := by
  unfold closeInsert at h
  by_cases hc : acc.1.contains it
  · simp [hc] at h; exact .inl h
  · simp only [hc] at h
    rcases List.mem_append.mp h with h' | h'
    · exact .inl h'
    · right; simpa using h'

theorem foldInsert_items_sub (l : List Item) (acc : ItemSet × List Item) (x : Item)
    (h : x ∈ (l.foldl closeInsert acc).1.items) :
    x ∈ acc.1.items ∨ x ∈ l := by
  induction l generalizing acc with
  | nil => exact .inl h
  | cons it t ih =>
      rcases ih _ h with h' | h'
      · rcases closeInsert_items_sub acc it x h' with h'' | h''
        · exact .inl h''
        · exact .inr (h'' ▸ List.mem_cons_self _ _)
      · exact .inr (List.mem_cons_of_mem _ h')

theorem length_filter_le_mono {α : Type} (l : List α) (p q : α → Bool)
    (himp : ∀ x ∈ l, q x = true → p x = true) :
    (l.filter q).length ≤ (l.filter p).length := by
  induction l with
  | nil => simp
  | cons z u ihu =>
      have himp' : ∀ y ∈ u, q y = true → p y = true :=
        fun y hy => himp y (.tail _ hy)
      by_cases hqz : q z = true
      · have hpz := himp z (List.mem_cons_self _ _) hqz
        simp [hqz, hpz]
        exact ihu himp'
      · have hqz' : q z = false := by revert hqz; cases q z <;> simp
        have hrec := ihu himp'
        by_cases hpz : p z = true <;> simp [hqz', hpz] <;> omega

theorem length_filter_lt {α : Type} (l : List α) (p q : α → Bool) (a : α)
    (ha : a ∈ l) (hpa : p a = true) (hqa : q a = false)
    (himp : ∀ x ∈ l, q x = true → p x = true) :
    (l.filter q).length < (l.filter p).length := by
  induction l with
  | nil => cases ha
  | cons x t ih =>
      have himp' : ∀ y ∈ t, q y = true → p y = true := fun y hy => himp y (.tail _ hy)
      rcases List.mem_cons.mp ha with h | h
      · subst h
        have hle := length_filter_le_mono t p q himp'
        simp [hpa, hqa]
        omega
      · by_cases hqx : q x = true
        · have hpx := himp x (List.mem_cons_self _ _) hqx
          simp [hqx, hpx]
          exact ih h himp'
        · have hqx' : q x = false := by revert hqx; cases q x <;> simp
          have hlt := ih h himp'
          by_cases hpx : p x = true <;> simp [hqx', hpx] <;> omega

theorem closeInsert_missing (rs : RuleSet) (acc : ItemSet × List Item) (it : Item)
    (hit : ∃ r ∈ rs.rules, it = Item.at0 r) :
    missingCount rs ((closeInsert acc it).1) + ((closeInsert acc it).2).length
      ≤ missingCount rs acc.1 + acc.2.length := by
  unfold closeInsert
  by_cases hc : acc.1.contains it = true
  · rw [if_pos hc]
  · rw [if_neg hc]
    obtain ⟨r, hr, hrit⟩ := hit
    have hmono : ∀ x : Item, acc.1.contains x = true →
        (⟨acc.1.id, acc.1.kernel, acc.1.items ++ [it]⟩ : ItemSet).contains x = true := by
      intro x hx
      unfold ItemSet.contains at hx ⊢
      rcases (by simpa using hx : x ∈ acc.1.kernel ∨ x ∈ acc.1.items) with h | h <;>
        simp [h]
    have hlt : missingCount rs ⟨acc.1.id, acc.1.kernel, acc.1.items ++ [it]⟩ <
        missingCount rs acc.1 := by
      unfold missingCount
      apply length_filter_lt _ _ _ r hr
      · simp only [decide_eq_true_eq]
        rw [← hrit]
        simpa using hc
      · simp only [decide_eq_false_iff_not, not_not]
        rw [← hrit]
        unfold ItemSet.contains
        simp
      · intro x _ hq
        simp only [decide_eq_true_eq] at hq ⊢
        intro hp
        exact hq (hmono _ hp)
    simp only [List.length_cons]
    omega

theorem foldInsert_missing (rs : RuleSet) (l : List Item) (acc : ItemSet × List Item)
    (hl : ∀ x ∈ l, ∃ r ∈ rs.rules, x = Item.at0 r) :
    missingCount rs ((l.foldl closeInsert acc).1) + ((l.foldl closeInsert acc).2).length
      ≤ missingCount rs acc.1 + acc.2.length := by
  induction l generalizing acc with
  | nil => exact le_refl _
  | cons it t ih =>
      have h1 := closeInsert_missing rs acc it (hl it (List.mem_cons_self _ _))
      have h2 := ih (closeInsert acc it) (fun x hx => hl x (List.mem_cons_of_mem _ hx))
      exact le_trans h2 h1

theorem isSymbolNonTerminal_some (it : Item) (h : it.isSymbolNonTerminal = true) :
    ∃ sym, it.symbol = some sym ∧ sym.isTerminalCore = false := by
  unfold Item.isSymbolNonTerminal at h
  cases hsym : it.symbol with
  | none => rw [hsym] at h; cases h
  | some sym =>
      rw [hsym] at h
      refine ⟨sym, rfl, ?_⟩
      simpa using h

theorem closeLoopF_succ_nonterm (rs : RuleSet) (fuel : Nat) (s : ItemSet)
    (it : Item) (stk : List Item) (sym : Symbol)
    (hns : it.isSymbolNonTerminal = true) (hsym : it.symbol = some sym) :
    closeLoopF rs (fuel + 1) s (it :: stk) =
      closeLoopF rs fuel (((rs.rulesFor sym).map Item.at0).foldl closeInsert (s, [])).1
        ((((rs.rulesFor sym).map Item.at0).foldl closeInsert (s, [])).2 ++ stk) := by
  conv_lhs => rw [closeLoopF]
  rw [if_pos hns, hsym]

theorem closeLoopF_succ_term (rs : RuleSet) (fuel : Nat) (s : ItemSet)
    (it : Item) (stk : List Item) (hns : it.isSymbolNonTerminal = false) :
    closeLoopF rs (fuel + 1) s (it :: stk) = closeLoopF rs fuel s stk := by
  conv_lhs => rw [closeLoopF]
  rw [if_neg (by simp [hns])]

theorem closeLoopF_kernel (rs : RuleSet) (fuel : Nat) (s : ItemSet) (stk : List Item) :
    (closeLoopF rs fuel s stk).kernel = s.kernel := by
  induction fuel generalizing s stk with
  | zero => rfl
  | succ fuel ih =>
      cases stk with
      | nil => rfl
      | cons it rest =>
          by_cases hns : it.isSymbolNonTerminal = true
          · obtain ⟨sym, hsym, _⟩ := isSymbolNonTerminal_some it hns
            rw [closeLoopF_succ_nonterm rs fuel s it rest sym hns hsym, ih,
              foldInsert_kernel]
          · rw [closeLoopF_succ_term rs fuel s it rest (by simpa using hns), ih]

theorem closeLoopF_id (rs : RuleSet) (fuel : Nat) (s : ItemSet) (stk : List Item) :
    (closeLoopF rs fuel s stk).id = s.id := by
  induction fuel generalizing s stk with
  | zero => rfl
  | succ fuel ih =>
      cases stk with
      | nil => rfl
      | cons it rest =>
          by_cases hns : it.isSymbolNonTerminal = true
          · obtain ⟨sym, hsym, _⟩ := isSymbolNonTerminal_some it hns
            rw [closeLoopF_succ_nonterm rs fuel s it rest sym hns hsym, ih,
              foldInsert_id]
          · rw [closeLoopF_succ_term rs fuel s it rest (by simpa using hns), ih]

theorem closeLoopF_items_sub (rs : RuleSet) (fuel : Nat) (s : ItemSet)
    (stk : List Item) (x : Item) (hx : x ∈ (closeLoopF rs fuel s stk).items) :
    x ∈ s.items ∨ ∃ r ∈ rs.rules, x = Item.at0 r := by
  induction fuel generalizing s stk with
  | zero => exact .inl hx
  | succ fuel ih =>
      cases stk with
      | nil => exact .inl hx
      | cons it rest =>
          by_cases hns : it.isSymbolNonTerminal = true
          · obtain ⟨sym, hsym, _⟩ := isSymbolNonTerminal_some it hns
            rw [closeLoopF_succ_nonterm rs fuel s it rest sym hns hsym] at hx
            rcases ih _ _ hx with h | h
            · rcases foldInsert_items_sub _ _ _ h with h' | h'
              · exact .inl h'
              · rcases List.mem_map.mp h' with ⟨r, hr, hrx⟩
                exact .inr ⟨r, List.mem_of_mem_filter hr, hrx.symm⟩
            · exact .inr h
          · rw [closeLoopF_succ_term rs fuel s it rest (by simpa using hns)] at hx
            exact ih _ _ hx

theorem closeLoopF_post (rs : RuleSet) (fuel : Nat) (s : ItemSet) (stk : List Item)
    (hfuel : stk.length + missingCount rs s ≤ fuel)
    (hinv : CloseInv rs s stk) :
    ExpandedSet rs (closeLoopF rs fuel s stk) := by
  induction fuel generalizing s stk with
  | zero =>
      have hstk : stk = [] := by
        cases stk with
        | nil => rfl
        | cons a t => simp at hfuel
      subst hstk
      intro j hj X hX hXnt r hr
      exact hinv j hj (List.not_mem_nil j) X hX hXnt r hr
  | succ fuel ih =>
      cases stk with
      | nil =>
          have heq : closeLoopF rs (fuel + 1) s [] = s := rfl
          rw [heq]
          intro j hj X hX hXnt r hr
          exact hinv j hj (List.not_mem_nil j) X hX hXnt r hr
      | cons it rest =>
          by_cases hns : it.isSymbolNonTerminal = true
          · obtain ⟨sym, hsym, hsnt⟩ := isSymbolNonTerminal_some it hns
            rw [closeLoopF_succ_nonterm rs fuel s it rest sym hns hsym]
            apply ih
            · have hmiss := foldInsert_missing rs ((rs.rulesFor sym).map Item.at0) (s, [])
                (fun x hx => by
                  rcases List.mem_map.mp hx with ⟨r, hr, hrx⟩
                  exact ⟨r, List.mem_of_mem_filter hr, hrx.symm⟩)
              simp only [List.length_cons] at hfuel
              simp only [List.length_append]
              simp only [List.length_nil] at hmiss
              omega
            · intro j hj hnot X hX hXnt r hr
              unfold ItemSet.iterItems at hj
              rw [foldInsert_kernel] at hj
              have hjnotstk : j ≠ it → j ∉ it :: rest → True := fun _ _ => trivial
              rcases List.mem_append.mp hj with hjk | hji
              · by_cases hjit : j = it
                · subst hjit
                  rw [hsym] at hX
                  injection hX with hX
                  subst hX
                  exact foldInsert_contains _ _ _ (List.mem_map.mpr ⟨r, hr, rfl⟩)
                · have hjstk : j ∉ it :: rest := by
                    intro hmem
                    rcases List.mem_cons.mp hmem with h | h
                    · exact hjit h
                    · exact hnot (List.mem_append.mpr (.inr h))
                  have hold := hinv j (List.mem_append.mpr (.inl hjk)) hjstk X hX hXnt r hr
                  exact foldInsert_mono _ _ _ hold
              · rcases foldInsert_items_stack _ _ _ hji with hji' | hji'
                · by_cases hjit : j = it
                  · subst hjit
                    rw [hsym] at hX
                    injection hX with hX
                    subst hX
                    exact foldInsert_contains _ _ _ (List.mem_map.mpr ⟨r, hr, rfl⟩)
                  · have hjstk : j ∉ it :: rest := by
                      intro hmem
                      rcases List.mem_cons.mp hmem with h | h
                      · exact hjit h
                      · exact hnot (List.mem_append.mpr (.inr h))
                    have hold := hinv j (List.mem_append.mpr (.inr hji')) hjstk X hX hXnt r hr
                    exact foldInsert_mono _ _ _ hold
                · exact absurd (List.mem_append.mpr (.inl hji')) hnot
          · rw [closeLoopF_succ_term rs fuel s it rest (by simpa using hns)]
            apply ih
            · simp only [List.length_cons] at hfuel
              omega
            · intro j hj hnot X hX hXnt r hr
              by_cases hjit : j = it
              · exfalso
                apply hns
                subst hjit
                unfold Item.isSymbolNonTerminal
                rw [hX]
                simp [hXnt]
              · refine hinv j hj ?_ X hX hXnt r hr
                intro hmem
                rcases List.mem_cons.mp hmem with h | h
                · exact hjit h
                · exact hnot h

theorem close_one_eq (rs : RuleSet) (s : ItemSet) :
    s.close rs 1 =
      (closeLoopF rs (s.kernel.length + rs.rules.length + 1) s s.kernel).addLookaheads rs := by
  unfold ItemSet.close
  simp

/-! ## C2: closure lookaheads come from FOLLOW(lhs), not FIRST(β a) -/

/-- C2, counterexample: on `S → A b <eos>; S → c A d; A → a` the closed
start state contains the item `A → • a` with lookahead `d`, yet the only
source item with `A` at the dot is the kernel item
`S → • A b <eos>, <eos>`, whose `FIRST(β a) = FIRST(b <eos> <eos>) = {b}`
does not contain `d` — refuting "lookahead b for exactly b ∈ FIRST(β a)". -/
theorem closure_lookahead_not_first :
    (⟨⟨2, Symbol.nterm "A", [Symbol.term "a"]⟩, 0, [Symbol.term "d"]⟩ : Item) ∈
        ((followG.startItemSet 1).close followG 1).items ∧
    (followG.startItemSet 1).kernel =
      [⟨⟨0, Symbol.nterm "S",
          [Symbol.nterm "A", Symbol.term "b", Symbol.eosS]⟩, 0, [Symbol.eosS]⟩] ∧
    Symbol.term "d" ∉
      specFirstString followG ([Symbol.term "b", Symbol.eosS] ++ [Symbol.eosS]) := by
  decide

/-- C2, amended: for `k = 1`, for every item of the closed set with a
non-terminal `X` after its dot and every rule `X → γ` of the grammar,
the closure contains the item `X → • γ` with lookahead `b` for exactly
the symbols `b ∈ FOLLOW(X)` — the grammar-wide follow set of `X` as
computed by `PrepSyntax::follow` — rather than `FIRST(β a)`. -/
theorem close_lr1_lookaheads (rs : RuleSet) (s : ItemSet)
    (hitems : s.items = []) (hker : ∀ j ∈ s.kernel, j.la ≠ [])
    (i : Item) (hi : i ∈ (s.close rs 1).iterItems) (X : Symbol)
    (hsym : i.symbol = some X) (hnt : X.isTerminalCore = false)
    (r : Rule) (hr : r ∈ rs.rules) (hlhs : r.lhs = X) (b : Symbol) :
    (⟨r, 0, [b]⟩ : Item) ∈ (s.close rs 1).items ↔ b ∈ followSet rs X := by
  rw [close_one_eq] at hi ⊢
  constructor
  · intro hmem
    unfold ItemSet.addLookaheads at hmem
    simp only [List.mem_flatMap, List.mem_map] at hmem
    obtain ⟨it, _, b', hb', heq⟩ := hmem
    obtain ⟨irule, ipos, ila⟩ := it
    simp only [Item.mk.injEq] at heq
    obtain ⟨h1, _, h3⟩ := heq
    simp only at hb'
    rw [h1, hlhs] at hb'
    have hbb : b' = b := by simpa using h3
    rwa [hbb] at hb'
  · intro hb
    have hpost := closeLoopF_post rs (s.kernel.length + rs.rules.length + 1) s s.kernel
      (by
        have hle : missingCount rs s ≤ rs.rules.length := by
          unfold missingCount
          exact List.length_filter_le _ _
        omega)
      (by
        intro j hj hnot X' hX' hnt' r' hr'
        exfalso
        apply hnot
        unfold ItemSet.iterItems at hj
        rw [hitems] at hj
        simpa using hj)
    obtain ⟨j0, hj0, hj0sym⟩ :
        ∃ j0, j0 ∈ (closeLoopF rs (s.kernel.length + rs.rules.length + 1)
            s s.kernel).iterItems ∧ j0.symbol = some X := by
      unfold ItemSet.addLookaheads ItemSet.iterItems at hi
      simp only [List.mem_append] at hi
      rcases hi with hik | hif
      · exact ⟨i, List.mem_append.mpr (.inl hik), hsym⟩
      · simp only [List.mem_flatMap, List.mem_map] at hif
        obtain ⟨it, hit, b', _, heq⟩ := hif
        refine ⟨it, List.mem_append.mpr (.inr hit), ?_⟩
        rw [← heq] at hsym
        obtain ⟨irule, ipos, ila⟩ := it
        exact hsym
    have hcont := hpost j0 hj0 X hj0sym hnt r
      (List.mem_filter.mpr ⟨hr, by simp [hlhs]⟩)
    have hcases : Item.at0 r ∈ (closeLoopF rs (s.kernel.length + rs.rules.length + 1)
        s s.kernel).kernel ∨ Item.at0 r ∈ (closeLoopF rs
        (s.kernel.length + rs.rules.length + 1) s s.kernel).items := by
      simpa [ItemSet.contains] using hcont
    rcases hcases with hk | hitems0
    · exfalso
      rw [closeLoopF_kernel] at hk
      exact hker _ hk rfl
    · unfold ItemSet.addLookaheads
      simp only [List.mem_flatMap, List.mem_map]
      refine ⟨Item.at0 r, hitems0, b, ?_, rfl⟩
      simpa [Item.at0, hlhs] using hb

/-- Witness for the amended C2 theorem: the `b`-lookahead instance on
the fixture grammar. -/
theorem close_lr1_lookaheads_witness :
    (⟨⟨2, Symbol.nterm "A", [Symbol.term "a"]⟩, 0, [Symbol.term "b"]⟩ : Item) ∈
      ((followG.startItemSet 1).close followG 1).items :=
  (close_lr1_lookaheads followG (followG.startItemSet 1) (by decide) (by decide)
      ⟨⟨0, Symbol.nterm "S", [Symbol.nterm "A", Symbol.term "b", Symbol.eosS]⟩, 0,
        [Symbol.eosS]⟩ (by decide) (Symbol.nterm "A") (by decide) (by decide)
      ⟨2, Symbol.nterm "A", [Symbol.term "a"]⟩ (by decide) (by decide)
      (Symbol.term "b")).mpr (by decide)

/-! ## Universe lemmas: every item the graph builder manipulates stays
inside the finite item universe -/

theorem foldl_insertIfAbsent_sub [DecidableEq α] (l : List α) (acc : List α) (x : α)
    (h : x ∈ l.foldl insertIfAbsent acc) : x ∈ acc ∨ x ∈ l := by
  induction l generalizing acc with
  | nil => exact .inl h
  | cons a t ih =>
      rcases ih _ h with h' | h'
      · unfold insertIfAbsent at h'
        by_cases ha : a ∈ acc
        · rw [if_pos ha] at h'; exact .inl h'
        · rw [if_neg ha] at h'
          rcases List.mem_append.mp h' with h'' | h''
          · exact .inl h''
          · have hxa : x = a := by simpa using h''
            exact .inr (hxa ▸ List.mem_cons_self a t)
      · exact .inr (List.mem_cons_of_mem _ h')

theorem worklist_acc_sub [DecidableEq α] (univ : List α) (succ emit : α → List α)
    (fuel : Nat) (stk visited acc : List α) (x : α)
    (h : x ∈ worklist univ succ emit fuel stk visited acc) :
    x ∈ acc ∨ ∃ y, x ∈ emit y := by
  induction fuel generalizing stk visited acc with
  | zero => exact .inl h
  | succ fuel ih =>
      cases stk with
      | nil => exact .inl h
      | cons a t =>
          unfold worklist at h
          by_cases hskip : a ∈ visited ∨ a ∉ univ
          · rw [if_pos hskip] at h
            exact ih _ _ _ h
          · rw [if_neg hskip] at h
            rcases ih _ _ _ h with h' | h'
            · rcases foldl_insertIfAbsent_sub _ _ _ h' with h'' | h''
              · exact .inl h''
              · exact .inr ⟨a, h''⟩
            · exact .inr h'

theorem followEmit_sub (rs : RuleSet) (x t : Symbol) (h : t ∈ followEmit rs x) :
    t ∈ Graph.symUniverse rs := by
  unfold followEmit at h
  simp only [List.mem_flatMap, List.mem_filterMap, List.mem_range] at h
  obtain ⟨r, hr, p, _, hp⟩ := h
  by_cases hx : r.rhs.get? p = some x
  · rw [if_pos hx] at hp
    cases hnext : r.rhs.get? (p + 1) with
    | none => rw [hnext] at hp; simp at hp
    | some t' =>
        rw [hnext] at hp
        by_cases ht' : t'.isTerminalCore = true
        · simp only [ht', if_true] at hp
          have hpt : t' = t := by simpa using hp
          subst hpt
          unfold Graph.symUniverse
          right
          exact List.mem_flatMap.mpr ⟨r, hr, .tail _ (List.get?_mem hnext)⟩
        · simp [ht'] at hp
  · rw [if_neg hx] at hp; cases hp

theorem followSet_sub (rs : RuleSet) (sym b : Symbol) (h : b ∈ followSet rs sym) :
    b ∈ Graph.symUniverse rs := by
  unfold followSet at h
  by_cases hs : rs.isStart sym = true
  · rw [if_pos hs] at h
    have : b = Symbol.eosS := by simpa using h
    subst this
    exact List.mem_cons_self _ _
  · rw [if_neg hs] at h
    rcases worklist_acc_sub _ _ _ _ _ _ _ _ h with h' | ⟨y, hy⟩
    · cases h'
    · exact followEmit_sub rs y b hy

theorem mem_itemUniverse (rs : RuleSet) (i : Item) :
    i ∈ Graph.itemUniverse rs ↔
      i.rule ∈ rs.rules ∧ i.pos ≤ i.rule.rhs.length ∧
        (i.la = [] ∨ ∃ b ∈ Graph.symUniverse rs, i.la = [b]) := by
  unfold Graph.itemUniverse
  simp only [List.mem_flatMap, List.mem_range, List.mem_cons, List.mem_map]
  constructor
  · rintro ⟨r, hr, p, hp, hcase⟩
    rcases hcase with h | ⟨b, hb, h⟩
    · subst h
      refine ⟨hr, ?_, .inl rfl⟩
      show p ≤ r.rhs.length
      omega
    · subst h
      refine ⟨hr, ?_, .inr ⟨b, hb, rfl⟩⟩
      show p ≤ r.rhs.length
      omega
  · rintro ⟨hr, hp, hla⟩
    refine ⟨i.rule, hr, i.pos, by omega, ?_⟩
    rcases hla with h | ⟨b, hb, h⟩
    · left; cases i; simp_all
    · right; exact ⟨b, hb, by cases i; simp_all⟩

theorem close_kernel_eq (rs : RuleSet) (k : Nat) (s : ItemSet) :
    (s.close rs k).kernel = s.kernel := by
  unfold ItemSet.close
  by_cases hk : k = 1
  · simp only [hk, if_pos rfl]
    unfold ItemSet.addLookaheads
    simp [closeLoopF_kernel]
  · rw [if_neg hk]
    exact closeLoopF_kernel _ _ _ _

theorem close_id_eq (rs : RuleSet) (k : Nat) (s : ItemSet) :
    (s.close rs k).id = s.id := by
  unfold ItemSet.close
  by_cases hk : k = 1
  · simp only [hk, if_pos rfl]
    unfold ItemSet.addLookaheads
    simp [closeLoopF_id]
  · rw [if_neg hk]
    exact closeLoopF_id _ _ _ _

theorem close_universe (rs : RuleSet) (k : Nat) (s : ItemSet)
    (h : ∀ i ∈ s.iterItems, i ∈ Graph.itemUniverse rs) :
    ∀ i ∈ (s.close rs k).iterItems, i ∈ Graph.itemUniverse rs := by
  have hloop : ∀ i ∈ (closeLoopF rs (s.kernel.length + rs.rules.length + 1)
      s s.kernel).iterItems, i ∈ Graph.itemUniverse rs := by
    intro i hi
    unfold ItemSet.iterItems at hi
    rw [closeLoopF_kernel] at hi
    rcases List.mem_append.mp hi with hk | hitem
    · exact h i (List.mem_append.mpr (.inl hk))
    · rcases closeLoopF_items_sub _ _ _ _ _ hitem with h' | ⟨r, hr, hrx⟩
      · exact h i (List.mem_append.mpr (.inr h'))
      · subst hrx
        rw [mem_itemUniverse]
        exact ⟨hr, by simp [Item.at0], .inl rfl⟩
  intro i hi
  by_cases hk : k = 1
  · subst hk
    rw [close_one_eq] at hi
    unfold ItemSet.addLookaheads ItemSet.iterItems at hi
    simp only [List.mem_append, List.mem_flatMap, List.mem_map] at hi
    rcases hi with hik | ⟨it, hit, b, hb, heq⟩
    · exact hloop i (List.mem_append.mpr (.inl hik))
    · have hu := hloop it (List.mem_append.mpr (.inr hit))
      rw [mem_itemUniverse] at hu ⊢
      obtain ⟨h1, h2, _⟩ := hu
      subst heq
      exact ⟨h1, h2, .inr ⟨b, followSet_sub rs it.rule.lhs b hb, rfl⟩⟩
  · unfold ItemSet.close at hi
    rw [if_neg hk] at hi
    exact hloop i hi

theorem reachable_kernel_universe (rs : RuleSet) (s : ItemSet)
    (h : ∀ i ∈ s.iterItems, i ∈ Graph.itemUniverse rs)
    (sym : Symbol) (t : ItemSet) (hmem : (sym, t) ∈ s.reachableSets rs) :
    ∀ i' ∈ t.iterItems, i' ∈ Graph.itemUniverse rs := by
  unfold ItemSet.reachableSets at hmem
  have hmem' := List.mem_of_mem_filter hmem
  rcases List.mem_map.mp hmem' with ⟨sym', _, heq⟩
  have ht : t = ItemSet.nextSet
      ⟨0, s.iterItems.filter (fun i => i.symbol = some sym'), []⟩ :=
    (congrArg Prod.snd heq).symm
  intro i' hi'
  rw [ht] at hi'
  have hi2 : i' ∈ (s.iterItems.filter
      (fun j => j.symbol = some sym')).filterMap Item.next := by
    simpa [ItemSet.nextSet, ItemSet.iterItems] using hi'
  rcases List.mem_filterMap.mp hi2 with ⟨i, hi, hnext⟩
  have hi0 : i ∈ s.iterItems := List.mem_of_mem_filter hi
  have hu := h i hi0
  unfold Item.next Item.atPos at hnext
  by_cases hle : i.pos + 1 ≤ i.rule.rhs.length
  · rw [if_pos hle] at hnext
    rw [Option.map_some'] at hnext
    injection hnext with hnext
    rw [mem_itemUniverse] at hu ⊢
    obtain ⟨h1, _, h3⟩ := hu
    rw [← hnext]
    exact ⟨h1, hle, h3⟩
  · rw [if_neg hle] at hnext
    cases hnext

/-! ## Counting: pairwise distinct kernels over the universe bound the
number of states -/

theorem eqRust_iff_toFinset (a b : ItemSet) :
    ItemSet.eqRust a b = true ↔ a.kernel.toFinset = b.kernel.toFinset := by
  unfold ItemSet.eqRust
  rw [Bool.and_eq_true, List.all_eq_true, List.all_eq_true]
  constructor
  · intro ⟨h1, h2⟩
    ext x
    simp only [List.mem_toFinset]
    constructor
    · intro hx; simpa using h1 x hx
    · intro hx; simpa using h2 x hx
  · intro h
    have h' := Finset.ext_iff.mp h
    simp only [List.mem_toFinset] at h'
    constructor
    · intro x hx
      simpa using (h' x).mp hx
    · intro x hx
      simpa using (h' x).mpr hx

theorem eqRust_congr_left (a a' b : ItemSet) (h : a.kernel = a'.kernel) :
    ItemSet.eqRust a b = ItemSet.eqRust a' b := by
  unfold ItemSet.eqRust
  rw [h]

theorem eqRust_congr_right (a b b' : ItemSet) (h : b.kernel = b'.kernel) :
    ItemSet.eqRust a b = ItemSet.eqRust a b' := by
  unfold ItemSet.eqRust
  rw [h]

theorem pairwise_distinct_length_le (rs : RuleSet) (l : List ItemSet)
    (hpair : l.Pairwise (fun a b => ItemSet.eqRust a b = false))
    (hsub : ∀ s ∈ l, ∀ i ∈ s.kernel, i ∈ Graph.itemUniverse rs) :
    l.length ≤ stateBound rs := by
  have hnodup : (l.map (fun s => s.kernel.toFinset)).Nodup := by
    apply List.Pairwise.map _ _ hpair
    intro a b hab heq
    rw [← eqRust_iff_toFinset] at heq
    rw [hab] at heq
    cases heq
  have hsubset : ∀ f ∈ l.map (fun s => s.kernel.toFinset),
      f ∈ ((Graph.itemUniverse rs).toFinset).powerset := by
    intro f hf
    rcases List.mem_map.mp hf with ⟨s, hs, hfs⟩
    rw [← hfs, Finset.mem_powerset]
    intro x hx
    exact List.mem_toFinset.mpr (hsub s hs x (List.mem_toFinset.mp hx))
  calc l.length = (l.map (fun s => s.kernel.toFinset)).length :=
        (List.length_map _ _).symm
    _ = (l.map (fun s => s.kernel.toFinset)).toFinset.card :=
        (List.toFinset_card_of_nodup hnodup).symm
    _ ≤ ((Graph.itemUniverse rs).toFinset).powerset.card :=
        Finset.card_le_card (fun f hf => hsubset f (List.mem_toFinset.mp hf))
    _ = 2 ^ (Graph.itemUniverse rs).toFinset.card := Finset.card_powerset _
    _ = stateBound rs := rfl

theorem pairwise_eqRust_set (l : List ItemSet) (n : Nat) (a b : ItemSet)
    (hb : l.get? n = some b) (hker : a.kernel = b.kernel)
    (hp : l.Pairwise (fun x y => ItemSet.eqRust x y = false)) :
    (l.set n a).Pairwise (fun x y => ItemSet.eqRust x y = false) := by
  induction l generalizing n with
  | nil => simpa using hp
  | cons c t ih =>
      cases n with
      | zero =>
          have hcb : c = b := by simpa using hb
          subst hcb
          rcases List.pairwise_cons.mp hp with ⟨hc, ht⟩
          refine List.pairwise_cons.mpr ⟨?_, ht⟩
          intro y hy
          rw [eqRust_congr_left a c y hker]
          exact hc y hy
      | succ n =>
          have hb' : t.get? n = some b := by simpa using hb
          rcases List.pairwise_cons.mp hp with ⟨hc, ht⟩
          refine List.pairwise_cons.mpr ⟨?_, ih n hb' ht⟩
          intro y hy
          rcases List.mem_or_eq_of_mem_set hy with hy' | hy'
          · exact hc y hy'
          · rw [hy', eqRust_congr_right c a b hker]
            exact hc b (List.get?_mem hb')

theorem containsSet_false (g : Graph) (s : ItemSet)
    (h : g.containsSet s = false) (t : ItemSet) (ht : t ∈ g.sets) :
    ItemSet.eqRust t s = false := by
  unfold Graph.containsSet at h
  rw [List.any_eq_false] at h
  have := h t ht
  simpa using this

/-! ## Invariant preservation through the graph builder -/

theorem closeAt_inv (rs : RuleSet) (k : Nat) (g : Graph) (sid : Nat)
    (hinv : GraphInv rs g) : GraphInv rs (g.closeAt rs k sid) := by
  obtain ⟨hu, hp, hid, he⟩ := hinv
  unfold Graph.closeAt
  cases hget : g.sets.get? sid with
  | none => exact ⟨hu, hp, hid, he⟩
  | some s =>
      obtain ⟨hslt, hsget⟩ := List.get?_eq_some.mp hget
      dsimp only
      refine ⟨?_, ?_, ?_, ?_⟩
      · intro t ht i hi
        rcases List.mem_or_eq_of_mem_set ht with ht' | ht'
        · exact hu t ht' i hi
        · subst ht'
          exact close_universe rs k s (hu s (List.get?_mem hget)) i hi
      · exact pairwise_eqRust_set _ _ _ _ hget (close_kernel_eq rs k s) hp
      · intro n h
        dsimp only at h ⊢
        have hlen : (g.sets.set sid (s.close rs k)).length = g.sets.length :=
          List.length_set _ _ _
        by_cases hn : n = sid
        · subst hn
          have heq : (g.sets.set n (s.close rs k)).get ⟨n, h⟩ = s.close rs k :=
            List.getElem_set_self h
          rw [heq, close_id_eq, ← hsget]
          exact hid n hslt
        · have hne : sid ≠ n := fun e => hn e.symm
          have heq : (g.sets.set sid (s.close rs k)).get ⟨n, h⟩ =
              g.sets.get ⟨n, by omega⟩ := List.getElem_set_ne hne h
          rw [heq]
          exact hid n _
      · intro e hee
        dsimp only at hee ⊢
        have hlen : (g.sets.set sid (s.close rs k)).length = g.sets.length :=
          List.length_set _ _ _
        rw [hlen]
        exact he e hee

theorem getId_lt (g : Graph) (s : ItemSet)
    (hid : ∀ n, ∀ h : n < g.sets.length, (g.sets.get ⟨n, h⟩).id = n)
    (hc : g.containsSet s = true) : (g.getId s).getD 0 < g.sets.length := by
  unfold Graph.containsSet at hc
  rw [List.any_eq_true] at hc
  obtain ⟨t, ht, hts⟩ := hc
  unfold Graph.getId
  cases hfind : g.sets.find? (fun t => t.eqRust s) with
  | none =>
      exfalso
      have := List.find?_eq_none.mp hfind t ht
      simp at this
      rw [(by simpa using hts : ItemSet.eqRust t s = true)] at this
      cases this
  | some t' =>
      have ht' : t' ∈ g.sets := List.mem_of_find?_eq_some hfind
      rcases List.mem_iff_get.mp ht' with ⟨⟨n, hn⟩, hget⟩
      have : t'.id = n := by rw [← hget]; exact hid n hn
      simpa [this] using hn

theorem buildEdge_inv (rs : RuleSet) (sid : Nat) (g : Graph) (q : List Nat)
    (sym : Symbol) (kernel : ItemSet) (hinv : GraphInv rs g)
    (hker : ∀ i ∈ kernel.iterItems, i ∈ Graph.itemUniverse rs)
    (hsid : sid < g.sets.length) :
    GraphInv rs (Graph.buildEdge sid (g, q) (sym, kernel)).1 := by
  obtain ⟨hu, hp, hid, he⟩ := hinv
  unfold Graph.buildEdge
  dsimp only
  by_cases hc : g.containsSet kernel = true
  · rw [if_neg (show ¬ ¬ g.containsSet kernel = true by simp [hc])]
    refine ⟨hu, hp, hid, ?_⟩
    intro e hee
    dsimp only at hee ⊢
    rcases List.mem_append.mp hee with hee | hee
    · exact he e hee
    · have : e = (sid, sym, (g.getId kernel).getD 0) := by simpa using hee
      subst this
      exact ⟨hsid, getId_lt g kernel hid hc⟩
  · have hc' : g.containsSet kernel = false := by
      revert hc; cases g.containsSet kernel <;> simp
    rw [if_pos (show ¬ g.containsSet kernel = true by simp [hc'])]
    refine ⟨?_, ?_, ?_, ?_⟩
    · intro t ht i hi
      dsimp only at ht
      rcases List.mem_append.mp ht with ht' | ht'
      · exact hu t ht' i hi
      · have ht2 : t = { kernel with id := g.sets.length } := by simpa using ht'
        subst ht2
        exact hker i hi
    · dsimp only
      rw [List.pairwise_append]
      refine ⟨hp, List.pairwise_singleton _ _, ?_⟩
      intro x hx y hy
      have hy' : y = { kernel with id := g.sets.length } := by simpa using hy
      subst hy'
      have hxp := containsSet_false g kernel hc' x hx
      rw [← hxp]
      apply eqRust_congr_right
      rfl
    · intro n h
      dsimp only at h ⊢
      have hlen : (g.sets ++ [{ kernel with id := g.sets.length }]).length =
          g.sets.length + 1 := by simp
      by_cases hn : n < g.sets.length
      · have heq : (g.sets ++ [{ kernel with id := g.sets.length }]).get ⟨n, h⟩ =
            g.sets.get ⟨n, hn⟩ := List.getElem_append_left ..
        rw [heq]
        exact hid n hn
      · have hn' : n = g.sets.length := by omega
        subst hn'
        have heq : (g.sets ++ [{ kernel with id := g.sets.length }]).get
            ⟨g.sets.length, h⟩ = { kernel with id := g.sets.length } := by
          rw [List.get_eq_getElem, List.getElem_append_right] <;> simp
        rw [heq]
    · intro e hee
      dsimp only at hee ⊢
      simp only [List.length_append, List.length_singleton]
      rcases List.mem_append.mp hee with hee | hee
      · have := he e hee
        omega
      · have he2 : e = (sid, sym, g.sets.length) := by simpa using hee
        subst he2
        refine ⟨?_, ?_⟩
        · show sid < g.sets.length + 1
          omega
        · show g.sets.length < g.sets.length + 1
          omega

theorem closeAt_length (rs : RuleSet) (k : Nat) (g : Graph) (sid : Nat) :
    (g.closeAt rs k sid).sets.length = g.sets.length := by
  unfold Graph.closeAt
  cases g.sets.get? sid <;> simp

theorem buildLoopF_succ (rs : RuleSet) (k fuel : Nat) (g : Graph) (sid : Nat)
    (rest : List Nat) :
    Graph.buildLoopF rs k (fuel + 1) g (sid :: rest) =
      Graph.buildLoopF rs k fuel (Graph.buildStep rs k sid g rest).1
        (Graph.buildStep rs k sid g rest).2 := rfl

theorem foldl_buildEdge_inv (rs : RuleSet) (sid : Nat) (l : List (Symbol × ItemSet))
    (acc : Graph × List Nat) (hinv : GraphInv rs acc.1)
    (hker : ∀ p ∈ l, ∀ i ∈ p.2.iterItems, i ∈ Graph.itemUniverse rs)
    (hsid : sid < acc.1.sets.length) :
    GraphInv rs ((l.foldl (Graph.buildEdge sid) acc).1) := by
  induction l generalizing acc with
  | nil => exact hinv
  | cons p t ih =>
      rw [List.foldl_cons]
      apply ih
      · exact buildEdge_inv rs sid acc.1 acc.2 p.1 p.2 hinv
          (hker p (List.mem_cons_self _ _)) hsid
      · exact fun p' hp' => hker p' (List.mem_cons_of_mem _ hp')
      · exact lt_of_lt_of_le hsid (buildEdge_sets_len sid acc p)

theorem buildStep_inv (rs : RuleSet) (k sid : Nat) (g : Graph) (rest : List Nat)
    (hinv : GraphInv rs g) : GraphInv rs (Graph.buildStep rs k sid g rest).1 := by
  have h1 : GraphInv rs (g.closeAt rs k sid) := closeAt_inv rs k g sid hinv
  unfold Graph.buildStep
  cases hget : (g.closeAt rs k sid).sets.get? sid with
  | none => simpa using h1
  | some s1 =>
      dsimp only
      apply foldl_buildEdge_inv rs sid _ _ h1
      · intro p hp i hi
        exact reachable_kernel_universe rs s1
          (h1.1 s1 (List.get?_mem hget)) p.1 p.2 hp i hi
      · exact (List.get?_eq_some.mp hget).1

theorem buildLoopF_inv (rs : RuleSet) (k fuel : Nat) (g : Graph) (q : List Nat)
    (hinv : GraphInv rs g) : GraphInv rs ((Graph.buildLoopF rs k fuel g q).1) := by
  induction fuel generalizing g q with
  | zero => exact hinv
  | succ fuel ih =>
      cases q with
      | nil => exact hinv
      | cons sid rest =>
          rw [buildLoopF_succ]
          apply ih
          exact buildStep_inv rs k sid g rest hinv

theorem buildEdge_delta (sid : Nat) (g : Graph) (q : List Nat) (p : Symbol × ItemSet) :
    (Graph.buildEdge sid (g, q) p).1.sets.length + q.length =
      (Graph.buildEdge sid (g, q) p).2.length + g.sets.length := by
  obtain ⟨sym, kernel⟩ := p
  unfold Graph.buildEdge
  dsimp only
  by_cases hc : g.containsSet kernel = true
  · rw [if_neg (show ¬ ¬ g.containsSet kernel = true by simp [hc])]
    dsimp only
    omega
  · have hc' : g.containsSet kernel = false := by
      revert hc; cases g.containsSet kernel <;> simp
    rw [if_pos (show ¬ g.containsSet kernel = true by simp [hc'])]
    simp
    omega

theorem foldl_buildEdge_delta (l : List (Symbol × ItemSet)) (sid : Nat)
    (g : Graph) (q : List Nat) :
    (l.foldl (Graph.buildEdge sid) (g, q)).1.sets.length + q.length =
      (l.foldl (Graph.buildEdge sid) (g, q)).2.length + g.sets.length := by
  induction l generalizing g q with
  | nil =>
      show g.sets.length + q.length = q.length + g.sets.length
      omega
  | cons p t ih =>
      rw [List.foldl_cons]
      rcases hgq : Graph.buildEdge sid (g, q) p with ⟨g', q'⟩
      have hstep := buildEdge_delta sid g q p
      rw [hgq] at hstep
      have hrec := ih g' q'
      dsimp only at hstep
      omega

theorem inv_len_le (rs : RuleSet) (g : Graph) (hinv : GraphInv rs g) :
    g.sets.length ≤ stateBound rs := by
  obtain ⟨hu, hp, _, _⟩ := hinv
  exact pairwise_distinct_length_le rs g.sets hp
    (fun s hs i hi => hu s hs i (List.mem_append.mpr (.inl hi)))

theorem graphInv_new (rs : RuleSet) (k : Nat) : GraphInv rs (Graph.new rs k) := by
  unfold Graph.new
  refine ⟨?_, ?_, ?_, ?_⟩
  · intro s hs i hi
    have hs' : s = rs.startItemSet k := by simpa using hs
    subst hs'
    unfold RuleSet.startItemSet at hi
    cases hh : rs.rules.head? with
    | none =>
        rw [hh] at hi
        simp [ItemSet.iterItems] at hi
    | some r0 =>
        rw [hh] at hi
        have hi' : i = { Item.at0 r0 with la := if 0 < k then [Symbol.eosS] else [] } := by
          simpa [ItemSet.iterItems] using hi
        subst hi'
        rw [mem_itemUniverse]
        refine ⟨?_, by simp [Item.at0], ?_⟩
        · cases hrules : rs.rules with
          | nil => rw [hrules] at hh; cases hh
          | cons a t =>
              rw [hrules] at hh
              have : a = r0 := by simpa using hh
              subst this
              exact List.mem_cons_self _ _
        · by_cases hk : 0 < k
          · right
            exact ⟨Symbol.eosS, List.mem_cons_self _ _, by simp [Item.at0, hk]⟩
          · left
            simp [Item.at0, hk]
  · simp
  · intro n h
    have hn : n = 0 := by simpa using h
    subst hn
    show (rs.startItemSet k).id = 0
    unfold RuleSet.startItemSet
    cases rs.rules.head? <;> rfl
  · intro e he
    simp at he

theorem buildStep_delta (rs : RuleSet) (k sid : Nat) (g : Graph) (rest : List Nat) :
    (Graph.buildStep rs k sid g rest).1.sets.length + rest.length =
      (Graph.buildStep rs k sid g rest).2.length + g.sets.length ∧
      g.sets.length ≤ (Graph.buildStep rs k sid g rest).1.sets.length := by
  unfold Graph.buildStep
  generalize (match (g.closeAt rs k sid).sets.get? sid with
    | some s => s.reachableSets rs
    | none => []) = l
  have hd := foldl_buildEdge_delta l sid (g.closeAt rs k sid) rest
  have hmono := foldl_buildEdge_sets_len l sid (g.closeAt rs k sid, rest)
  have hc := closeAt_length rs k g sid
  dsimp only at hmono
  exact ⟨by omega, by omega⟩

theorem buildLoopF_drain (rs : RuleSet) (k : Nat) :
    ∀ fuel (g : Graph) (q : List Nat), GraphInv rs g → buildMeasure rs g q ≤ fuel →
      (Graph.buildLoopF rs k fuel g q).2 = [] ∧
        ∀ fuel', fuel ≤ fuel' →
          Graph.buildLoopF rs k fuel' g q = Graph.buildLoopF rs k fuel g q := by
  intro fuel
  induction fuel with
  | zero =>
      intro g q hinv hm
      exfalso
      have hlen := inv_len_le rs g hinv
      unfold buildMeasure at hm
      omega
  | succ fuel ih =>
      intro g q hinv hm
      cases q with
      | nil =>
          refine ⟨rfl, ?_⟩
          intro fuel' hf
          cases fuel' with
          | zero => omega
          | succ f => rfl
      | cons sid rest =>
          have hinv2 := buildStep_inv rs k sid g rest hinv
          obtain ⟨hd, hle⟩ := buildStep_delta rs k sid g rest
          have hB2 := inv_len_le rs _ hinv2
          have hB1 := inv_len_le rs g hinv
          have hm2 : buildMeasure rs (Graph.buildStep rs k sid g rest).1
              (Graph.buildStep rs k sid g rest).2 ≤ fuel := by
            unfold buildMeasure at hm ⊢
            simp only [List.length_cons] at hm
            omega
          obtain ⟨hdrain, hstable⟩ := ih _ _ hinv2 hm2
          rw [buildLoopF_succ]
          refine ⟨hdrain, ?_⟩
          intro fuel' hf
          cases fuel' with
          | zero => omega
          | succ f =>
              rw [buildLoopF_succ]
              exact hstable f (by omega)

theorem closeAt_kernel_stable (rs : RuleSet) (k : Nat) (g : Graph) (sid n : Nat) :
    ((g.closeAt rs k sid).sets.get? n).map (fun s => s.kernel) =
      (g.sets.get? n).map (fun s => s.kernel) := by
  unfold Graph.closeAt
  cases hget : g.sets.get? sid with
  | none => rfl
  | some s =>
      dsimp only
      by_cases hn : sid = n
      · subst hn
        rw [List.get?_set_eq, hget]
        simp [close_kernel_eq]
      · rw [List.get?_set_ne _ _ hn]

theorem buildEdge_get_stable (sid : Nat) (g : Graph) (q : List Nat)
    (p : Symbol × ItemSet) (n : Nat) (hn : n < g.sets.length) :
    (Graph.buildEdge sid (g, q) p).1.sets.get? n = g.sets.get? n := by
  obtain ⟨sym, kernel⟩ := p
  unfold Graph.buildEdge
  dsimp only
  by_cases hc : g.containsSet kernel = true
  · rw [if_neg (show ¬ ¬ g.containsSet kernel = true by simp [hc])]
  · have hc' : ¬ g.containsSet kernel = true := by simp_all
    rw [if_pos hc']
    exact List.get?_append hn

theorem foldl_buildEdge_get_stable (l : List (Symbol × ItemSet)) (sid : Nat)
    (g : Graph) (q : List Nat) (n : Nat) (hn : n < g.sets.length) :
    (l.foldl (Graph.buildEdge sid) (g, q)).1.sets.get? n = g.sets.get? n := by
  induction l generalizing g q with
  | nil => rfl
  | cons p t ih =>
      rw [List.foldl_cons]
      rcases hgq : Graph.buildEdge sid (g, q) p with ⟨g1, q1⟩
      have hstep := buildEdge_get_stable sid g q p n hn
      rw [hgq] at hstep
      dsimp only at hstep
      have hlen : g.sets.length ≤ g1.sets.length := by
        have hm := buildEdge_sets_len sid (g, q) p
        rw [hgq] at hm
        exact hm
      rw [ih g1 q1 (lt_of_lt_of_le hn hlen), hstep]

theorem buildStep_kernel_stable (rs : RuleSet) (k sid : Nat) (g : Graph)
    (rest : List Nat) (n : Nat) (hn : n < g.sets.length) :
    ((Graph.buildStep rs k sid g rest).1.sets.get? n).map (fun s => s.kernel) =
      (g.sets.get? n).map (fun s => s.kernel) := by
  unfold Graph.buildStep
  generalize (match (g.closeAt rs k sid).sets.get? sid with
    | some s => s.reachableSets rs
    | none => []) = l
  have h1 : n < (g.closeAt rs k sid).sets.length := by
    rw [closeAt_length]
    exact hn
  rw [foldl_buildEdge_get_stable l sid (g.closeAt rs k sid) rest n h1]
  exact closeAt_kernel_stable rs k g sid n

theorem buildLoopF_kernel_stable (rs : RuleSet) (k : Nat) :
    ∀ fuel (g : Graph) (q : List Nat) (n : Nat), n < g.sets.length →
      ((Graph.buildLoopF rs k fuel g q).1.sets.get? n).map (fun s => s.kernel) =
        (g.sets.get? n).map (fun s => s.kernel) := by
  intro fuel
  induction fuel with
  | zero =>
      intro g q n hn
      rfl
  | succ fuel ih =>
      intro g q n hn
      cases q with
      | nil => rfl
      | cons sid rest =>
          rw [buildLoopF_succ]
          have hle := (buildStep_delta rs k sid g rest).2
          rw [ih _ _ n (lt_of_lt_of_le hn hle)]
          exact buildStep_kernel_stable rs k sid g rest n hn

/-- C6: invariants of the built LR graph.  State 0's kernel is exactly
the start item (the grammar's first rule, dot at position 0, lookahead
`(<eos>)` when `0 < k` and empty otherwise); no two states of the final
state list have equal kernels (`eqRust`, the mutual-inclusion equality
the builder's `contains` uses, is false on every pair); and every edge
`(from, symbol, tgt)` has both endpoints among the listed states. -/
theorem build_graph_invariants (rs : RuleSet) (k : Nat) (r0 : Rule)
    (h0 : rs.rules.head? = some r0) :
    ((Graph.build rs k).sets.get? 0).map (fun s => s.kernel) =
      some [{ Item.at0 r0 with la := if 0 < k then [Symbol.eosS] else [] }] ∧
      (Graph.build rs k).sets.Pairwise (fun a b => ItemSet.eqRust a b = false) ∧
      ∀ e ∈ (Graph.build rs k).edges,
        e.1 < (Graph.build rs k).sets.length ∧
          e.2.2 < (Graph.build rs k).sets.length := by
  have hinv := buildLoopF_inv rs k (Graph.buildFuel rs) (Graph.new rs k) [0]
      (graphInv_new rs k)
  refine ⟨?_, hinv.2.1, hinv.2.2.2⟩
  have hst := buildLoopF_kernel_stable rs k (Graph.buildFuel rs) (Graph.new rs k) [0] 0
      (show 0 < 1 by omega)
  show ((Graph.buildLoopF rs k (Graph.buildFuel rs) (Graph.new rs k) [0]).1.sets.get?
      0).map (fun s => s.kernel) = _
  rw [hst]
  show some (rs.startItemSet k).kernel = _
  unfold RuleSet.startItemSet
  rw [h0]

theorem build_graph_invariants_witness :
    ((Graph.build conflictG 0).sets.get? 0).map (fun s => s.kernel) =
      some [{ Item.at0 ⟨0, Symbol.startS, [Symbol.nterm "A", Symbol.eosS]⟩ with
        la := if 0 < 0 then [Symbol.eosS] else [] }] ∧
      (Graph.build conflictG 0).sets.Pairwise (fun a b => ItemSet.eqRust a b = false) ∧
      ∀ e ∈ (Graph.build conflictG 0).edges,
        e.1 < (Graph.build conflictG 0).sets.length ∧
          e.2.2 < (Graph.build conflictG 0).sets.length :=
  build_graph_invariants conflictG 0
    ⟨0, Symbol.startS, [Symbol.nterm "A", Symbol.eosS]⟩ rfl

/-- C7: `Graph::build`'s work-list loop terminates on every rule set:
with fuel at least `buildFuel rs` (one pop per possible enqueue — the
number of kernels distinct as sets of universe items, plus the seed)
the FIFO queue is drained to `[]`, and the resulting graph no longer
depends on the fuel: any sufficient fuel yields `Graph.build rs k`. -/
theorem build_terminates (rs : RuleSet) (k fuel : Nat)
    (hf : Graph.buildFuel rs ≤ fuel) :
    (Graph.buildLoopF rs k fuel (Graph.new rs k) [0]).2 = [] ∧
      (Graph.buildLoopF rs k fuel (Graph.new rs k) [0]).1 = Graph.build rs k := by
  have hm : buildMeasure rs (Graph.new rs k) [0] ≤ Graph.buildFuel rs := by
    show 1 + (stateBound rs + 1 - 1) ≤ stateBound rs + 2
    omega
  obtain ⟨hd, hs⟩ := buildLoopF_drain rs k (Graph.buildFuel rs) (Graph.new rs k) [0]
      (graphInv_new rs k) hm
  have heq := hs fuel hf
  rw [heq]
  exact ⟨hd, rfl⟩

theorem build_terminates_witness :
    (Graph.buildLoopF conflictG 0 (Graph.buildFuel conflictG + 5)
        (Graph.new conflictG 0) [0]).2 = [] ∧
      (Graph.buildLoopF conflictG 0 (Graph.buildFuel conflictG + 5)
        (Graph.new conflictG 0) [0]).1 = Graph.build conflictG 0 :=
  build_terminates conflictG 0 (Graph.buildFuel conflictG + 5)
    (Nat.le_add_right _ 5)

end Yalp
